import Mathlib

/-!
Verification development for the `git-short-url` storage engine
(`src/repository.js`).  JavaScript strings are modelled as `List Char`,
the nodegit commit store as a list of commits, and the asynchronous
collaborators (libgit2 object store, the `git rev-parse --disambiguate`
process, the network remote) as explicit data passed to the modelled
functions.  Machine arithmetic does not occur in the source; all numbers
are modelled as `Nat`/`Int`.
-/

/-- JavaScript strings are modelled as lists of characters. -/
abbrev Str := List Char

/-- Embed a Lean string literal into the model's string type. -/
def strOf (s : String) : Str := s.toList

/-- The whitespace class used by JavaScript `String.prototype.trim`
(restricted to the characters that can occur in commit messages here). -/
def isJsWS (c : Char) : Bool :=
  c == ' ' || c == '\t' || c == '\n' || c == '\r'

/-- Remove leading JavaScript whitespace. -/
def ltrimWS (s : Str) : Str := s.dropWhile isJsWS

/-- Remove trailing JavaScript whitespace. -/
def rtrimWS (s : Str) : Str := (s.reverse.dropWhile isJsWS).reverse

/-- Model of JavaScript `String.prototype.trim`. -/
def jsTrim (s : Str) : Str := rtrimWS (ltrimWS s)

/-! ### Hexadecimal characters and `Buffer` hex conversion -/

/-- The sixteen lowercase hex digits, as printed by git for object ids. -/
def LHEX : Str := "0123456789abcdef".toList

/-- A character accepted by the regular expression class `[a-fA-F0-9]`. -/
def isHexDigitChar (c : Char) : Bool :=
  ('0' ≤ c && c ≤ '9') || ('a' ≤ c && c ≤ 'f') || ('A' ≤ c && c ≤ 'F')

/-- Numeric value of a hex digit (0 for non-hex input, which the callers
never supply). -/
def hexVal (c : Char) : Nat :=
  if '0' ≤ c && c ≤ '9' then c.toNat - '0'.toNat
  else if 'a' ≤ c && c ≤ 'f' then c.toNat - 'a'.toNat + 10
  else if 'A' ≤ c && c ≤ 'F' then c.toNat - 'A'.toNat + 10
  else 0

/-- Lowercase hex digit for a value below 16 (as produced by
`Buffer.prototype.toString('hex')`). -/
def hexDigitChar (n : Nat) : Char :=
  if n < 10 then Char.ofNat ('0'.toNat + n) else Char.ofNat ('a'.toNat + (n - 10))

/-- Model of `Buffer.from(s, 'hex')`: consume the string two hex digits at
a time into bytes; a trailing odd digit is dropped. -/
def hexToBytes : Str → List Nat
  | c1 :: c2 :: rest => (hexVal c1 * 16 + hexVal c2) :: hexToBytes rest
  | _ => []

/-- Model of `Buffer.prototype.toString('hex')` (lowercase output). -/
def byteToHex (b : Nat) : Str := [hexDigitChar (b / 16), hexDigitChar (b % 16)]

/-- Hex rendering of a byte list. -/
def bytesToHex (bs : List Nat) : Str := (bs.map byteToHex).flatten

/-! ### The `base-58` package

`base58.encode` treats the buffer as a big-endian number, emits its base-58
digits over the Bitcoin alphabet, and maps each leading zero byte to a
leading `'1'`.  `base58.decode` is the inverse.  The big-number digit loop
is modelled through `toDigitsRev` (most significant digit last), which is
proved equal to `Nat.digits`. -/

/-- The Bitcoin base-58 alphabet used by the `base-58` package. -/
def B58Alphabet : Str :=
  ['1', '2', '3', '4', '5', '6', '7', '8', '9',
   'A', 'B', 'C', 'D', 'E', 'F', 'G', 'H', 'J', 'K', 'L', 'M', 'N',
   'P', 'Q', 'R', 'S', 'T', 'U', 'V', 'W', 'X', 'Y', 'Z',
   'a', 'b', 'c', 'd', 'e', 'f', 'g', 'h', 'i', 'j', 'k', 'm', 'n',
   'o', 'p', 'q', 'r', 's', 't', 'u', 'v', 'w', 'x', 'y', 'z']

/-- Base-58 digit as a character. -/
def b58Char (d : Nat) : Char := B58Alphabet.getD d '?'

/-- Index of a character in a string (used to invert the alphabet). -/
def idxOfChar (c : Char) : Str → Option Nat
  | [] => none
  | x :: t => if x == c then some 0 else (idxOfChar c t).map (· + 1)

/-- Numeric value of a base-58 character. -/
def b58Index (c : Char) : Option Nat := idxOfChar c B58Alphabet

/-- Big-endian numeric value of a byte list. -/
def bytesToNat (bs : List Nat) : Nat := bs.foldl (fun n b => n * 256 + b) 0

/-- Little-endian digits of `n` in base `b`, with explicit fuel (the fuel
is always chosen large enough; see `toDigitsRev_eq_digits`). -/
def toDigitsRev (b : Nat) : Nat → Nat → List Nat
  | 0, _ => []
  | fuel + 1, n => if n = 0 then [] else n % b :: toDigitsRev b fuel (n / b)

/-- Model of `base58.encode`. -/
def base58encode (bs : List Nat) : Str :=
  ((bs.takeWhile (fun b => b == 0)).map (fun _ => '1')) ++
    ((toDigitsRev 58 (2 * bs.length + 1) (bytesToNat bs)).reverse.map b58Char)

/-- Model of `base58.decode` (`none` models the exception thrown on a
character outside the alphabet). -/
def base58decode (s : Str) : Option (List Nat) :=
  match (s.dropWhile (fun c => c == '1')).mapM b58Index with
  | none => none
  | some ds =>
    some ((s.takeWhile (fun c => c == '1')).map (fun _ => 0) ++
      (toDigitsRev 256 ds.length (ds.foldl (fun acc d => acc * 58 + d) 0)).reverse)

/-! ### URL validation (`isValidURL`, src/repository.js lines 49-57)

The two URL parsers are external collaborators (Node's WHATWG `new URL`
and the legacy `url.parse`).  They are modelled on the fragment that
`isValidURL` observes: extraction of the scheme (a leading letter
followed by letters, digits, `+`, `-` or `.` up to a colon), the WHATWG
requirement that special schemes carry a nonempty host, and the legacy
parser's lowercased `protocol` property. -/

def isSchemeStart (c : Char) : Bool := c.isAlpha

def isSchemeChar (c : Char) : Bool :=
  c.isAlphanum || c == '+' || c == '-' || c == '.'

def schemeAux (acc : Str) : Str → Option (Str × Str)
  | [] => none
  | ':' :: t => some (acc.reverse, t)
  | c :: t => if isSchemeChar c then schemeAux (c :: acc) t else none

/-- Split a URL string into its scheme and the remainder after the colon,
if it has a syntactically valid scheme. -/
def urlScheme : Str → Option (Str × Str)
  | [] => none
  | c :: t => if isSchemeStart c then schemeAux [c] t else none

def lowerStr (s : Str) : Str := s.map Char.toLower

/-- The WHATWG special schemes that require a nonempty host. -/
def specialSchemes : List Str :=
  [strOf "http", strOf "https", strOf "ws", strOf "wss", strOf "ftp"]

/-- After the colon of a special-scheme URL: skip slashes, then require at
least one host character before a delimiter. -/
def hasHost (rest : Str) : Bool :=
  match rest.dropWhile (fun c => c == '/') with
  | [] => false
  | c :: _ => !(c == '/' || c == '?' || c == '#' || c == ':')

/-- Modelled success predicate of `new URL(url)` (WHATWG parser): the
input must have a scheme, and special schemes must be followed by a
nonempty host. -/
def whatwgOk (s : Str) : Bool :=
  match urlScheme s with
  | none => false
  | some (sch, rest) =>
    if specialSchemes.contains (lowerStr sch) then hasHost rest else true

/-- Modelled `url.parse(s).protocol` (legacy parser): the scheme,
lowercased, with a trailing colon; `none` models `null`. -/
def legacyProtocol (s : Str) : Option Str :=
  (urlScheme s).map (fun p => lowerStr p.1 ++ [':'])

/-- `VALID_PROTOCOLS` (src/repository.js lines 27-31). -/
def VALID_PROTOCOLS : List Str := [strOf "http", strOf "https", strOf "ftp"]

/-- Model of `isValidURL` (src/repository.js lines 49-57).  The `try`
block is modelled by the `whatwgOk` guard (a parse failure in either
parser lands in the `catch` and yields `false`); the argument is an
`Option` because `data.url` may be absent, in which case `new URL`
throws on the coerced value and the result is `false`. -/
def isValidURL (u : Option Str) : Bool :=
  match u with
  | none => false
  | some s =>
    if whatwgOk s then
      match legacyProtocol s with
      | none => false
      | some p => (VALID_PROTOCOLS.map (fun x => lowerStr x ++ [':'])).contains p
    else false

/-- The specification's reading of the validator: the input parses
strictly as a URL and its scheme, compared case-insensitively, is one of
`http`, `https`, `ftp` (spec §4.1). -/
def isValidURLSpec (s : Str) : Bool :=
  whatwgOk s &&
    (match urlScheme s with
     | none => false
     | some (sch, _) => VALID_PROTOCOLS.contains (lowerStr sch))

deriving instance DecidableEq for Except

/-! ### The commit store and the Commit Resolver

A commit is modelled by its hash (40 lowercase hex characters), parent
hashes, message and author/committer signature data.  The object store of
the repository is the list of its commits; `storeWF` states the git
invariants (distinct 40-character lowercase hex ids).  `git rev-parse
--disambiguate` enumerates the object ids sharing a prefix in sorted
order, which `sortByHash` reproduces. -/

structure GCommit where
  hash : Str
  parents : List Str
  message : Str
  authorName : Str
  authorTime : Int
  authorOffset : Int
  commitTime : Int

deriving DecidableEq, Repr

abbrev Store := List GCommit

/-- A well-formed git object id: 40 lowercase hex characters. -/
def isHash (h : Str) : Prop := h.length = 40 ∧ ∀ c ∈ h, c ∈ LHEX

instance (h : Str) : Decidable (isHash h) := by
  unfold isHash
  infer_instance

/-- Store well-formedness: distinct, well-formed commit ids. -/
def storeWF (s : Store) : Prop :=
  (s.map (fun c => c.hash)).Nodup ∧ ∀ c ∈ s, isHash c.hash

instance (s : Store) : Decidable (storeWF s) := by
  unfold storeWF
  infer_instance

/-- Boolean string prefix test (git's object-id prefix match). -/
def strIsPfx : Str → Str → Bool
  | [], _ => true
  | _ :: _, [] => false
  | a :: as, b :: bs => a == b && strIsPfx as bs

/-- The commits of the store whose id starts with the given hex prefix. -/
def commitsMatching (store : Store) (pfx : Str) : List GCommit :=
  store.filter (fun c => strIsPfx pfx c.hash)

/-- Lexicographic order on hex strings (= numeric order of object ids). -/
def strLe : Str → Str → Bool
  | [], _ => true
  | _ :: _, [] => false
  | a :: as, b :: bs => if a == b then strLe as bs else decide (a < b)

def insertByHash (c : GCommit) : List GCommit → List GCommit
  | [] => [c]
  | d :: ds => if strLe c.hash d.hash then c :: d :: ds else d :: insertByHash c ds

/-- Sort commits by id, the order in which the object database enumerates
ids for `git rev-parse --disambiguate`. -/
def sortByHash (l : List GCommit) : List GCommit := l.foldr insertByHash []

/-- The test `ambiguousId.match(/^[a-fA-F0-9]{4,}$/)` (src/repository.js
line 61). -/
def hexAtLeast4 (s : Str) : Bool :=
  decide (4 ≤ s.length) && s.all isHexDigitChar

/-- Model of `disambigateCommit` (src/repository.js lines 60-77).  The
second component records whether the external `git rev-parse
--disambiguate` process was spawned.  The process lists the object ids
sharing the prefix in sorted order; the loop then returns the first id
that dereferences as a commit, i.e. the first candidate (every object in
the modelled store is a commit).  When no candidate resolves the
JavaScript function falls through and returns `undefined`, modelled as
`none`. -/
def disambigateCommit (store : Store) (ambiguousId : Str) : Option GCommit × Bool :=
  if hexAtLeast4 ambiguousId then
    (match sortByHash (commitsMatching store ambiguousId) with
     | [] => none
     | c :: _ => some c,
     true)
  else (none, false)

/-- Errors of the modelled libgit2 object store. -/
inductive GitErr
  | enotfound
  | eambiguous
  | einvalid

deriving DecidableEq, Repr

/-- Model of `Commit.lookupPrefix(repo, Oid.fromString(shortId),
shortId.length)`:  `Oid.fromString` rejects non-hex or over-long input;
libgit2 reports a prefix shorter than `GIT_OID_MINPREFIXLEN = 4` as
ambiguous; otherwise the prefix resolves iff exactly one object id
starts with it. -/
def commitLookupPfx (store : Store) (pfx : Str) : Except GitErr GCommit :=
  if !(pfx.all isHexDigitChar) || decide (40 < pfx.length) then .error .einvalid
  else if pfx.length < 4 then .error .eambiguous
  else
    match commitsMatching store pfx with
    | [] => .error .enotfound
    | [c] => .ok c
    | _ :: _ :: _ => .error .eambiguous

/-- Model of `getCommitFromShortCommitId` (src/repository.js lines
79-89): only `EAMBIGUOUS` falls back to disambiguation, any other error
is rethrown.  The boolean records whether the external process ran. -/
def getCommitFromShortCommitId (store : Store) (shortId : Str) :
    Except GitErr (Option GCommit × Bool) :=
  match commitLookupPfx store shortId with
  | .ok c => .ok (some c, false)
  | .error .eambiguous => .ok (disambigateCommit store shortId)
  | .error e => .error e

/-- The commit (if any) that the resolver yields for a prefix, ignoring
errors and the process flag. -/
def resolveOpt (store : Store) (pfx : Str) : Option GCommit :=
  match getCommitFromShortCommitId store pfx with
  | .ok (o, _) => o
  | .error _ => none

/-- `MINIMUM_HASH` (src/repository.js line 24). -/
def MINIMUM_HASH : Nat := 4

/-- The `while` loop of `getShortId` (src/repository.js lines 94-106),
with explicit fuel (always chosen larger than the number of iterations,
which is bounded because `hashLength` grows by 2 up to the id length).
It returns the accepted hex prefix, `none` modelling the `undefined`
that the JavaScript function returns when the loop exhausts. -/
def getShortIdGo (store : Store) (longId : Str) : Nat → Nat → Except GitErr (Option Str)
  | _, 0 => .ok none
  | hashLength, fuel + 1 =>
    if hashLength ≤ longId.length then
      match getCommitFromShortCommitId store (longId.take hashLength) with
      | .error e => .error e
      | .ok (shortCommit, _) =>
        match shortCommit with
        | some c =>
          if c.hash = longId then .ok (some (longId.take hashLength))
          else getShortIdGo store longId (hashLength + 2) fuel
        | none => getShortIdGo store longId (hashLength + 2) fuel
    else .ok none

/-- Model of `getShortId` (src/repository.js lines 91-107): find the
first accepted prefix and base58-encode its raw bytes
(`base58.encode(Buffer.from(shortId, 'hex'))`). -/
def getShortId (store : Store) (commit : GCommit) (hashLength : Nat) :
    Except GitErr (Option Str) :=
  match getShortIdGo store commit.hash hashLength (commit.hash.length + 2) with
  | .error e => .error e
  | .ok none => .ok none
  | .ok (some pfx) => .ok (some (base58encode (hexToBytes pfx)))

/-! ### Record codec: gray-matter front matter and flat YAML

`matter(message)` and `YAML.stringify(metadata)` are external
collaborators.  They are modelled on the flat fragment this program
uses: a `---` open delimiter, a block of `key: value` lines, a `\n---`
close delimiter, then the free-text content.  Following gray-matter, an
input that does not open with `---` (or opens with `----`) has no front
matter; with an unterminated front matter the whole remainder is the
block and the content is empty; after the close delimiter one `\r` and
one `\n` are stripped from the content.  YAML values are modelled as
plain scalars (see `plainScalar`); `js-yaml` and the `yaml` package
agree with the model on that fragment. -/

/-- Does the string start with the close delimiter `\n---`? -/
def startsWithClose : Str → Bool
  | c0 :: c1 :: c2 :: c3 :: _ => c0 == '\n' && c1 == '-' && c2 == '-' && c3 == '-'
  | _ => false

/-- Split at the first occurrence of `\n---`, returning the part before
it and the part after those four characters. -/
def splitAtClose : Str → Option (Str × Str)
  | [] => none
  | c :: rest =>
    if startsWithClose (c :: rest) then some ([], rest.drop 3)
    else (splitAtClose rest).map (fun p => (c :: p.1, p.2))

/-- gray-matter strips one `\r` and then one `\n` from the start of the
content following the close delimiter. -/
def stripContentStart (s : Str) : Str :=
  let s1 := match s with
    | '\r' :: t => t
    | _ => s
  match s1 with
  | '\n' :: t => t
  | _ => s1

/-- Split a line at its first colon. -/
def splitAtColon : Str → Option (Str × Str)
  | [] => none
  | c :: rest =>
    if c == ':' then some ([], rest)
    else (splitAtColon rest).map (fun p => (c :: p.1, p.2))

/-- Parse one `key: value` line of the flat YAML block; lines without a
colon or with an empty key yield nothing. -/
def parseYamlLine (line : Str) : Option (Str × Str) :=
  match splitAtColon line with
  | none => none
  | some (k, v) =>
    if k = [] then none
    else some (k, ((v.dropWhile (fun c => c == ' ')).reverse.dropWhile
      (fun c => c == ' ')).reverse)

/-- Split a block into its lines. -/
def splitLines : Str → List Str
  | [] => [[]]
  | c :: t =>
    if c == '\n' then [] :: splitLines t
    else
      match splitLines t with
      | [] => [[c]]
      | l :: ls => (c :: l) :: ls

/-- Parse the YAML block into key/value data. -/
def parseBlock (block : Str) : List (Str × Str) :=
  (splitLines block).filterMap parseYamlLine

/-- Model of `matter(s)`: returns `(content, data)`. -/
def matterParse (s : Str) : Str × List (Str × Str) :=
  match s with
  | '-' :: '-' :: '-' :: rest =>
    match rest with
    | '-' :: _ => (s, [])
    | _ =>
      match splitAtClose rest with
      | none => ([], parseBlock rest)
      | some (block, after) => (stripContentStart after, parseBlock block)
  | _ => (s, [])

/-- One `key: value` entry as emitted by `YAML.stringify`. -/
def entryStr (kv : Str × Str) : Str := kv.1 ++ ':' :: ' ' :: kv.2

/-- Model of `YAML.stringify` on a flat map of plain scalars: one
`key: value` line per entry, each terminated by a newline. -/
def yamlStringify (kvs : List (Str × Str)) : Str :=
  (kvs.map (fun kv => entryStr kv ++ ['\n'])).flatten

/-- Characters that keep a scalar plain (unquoted) for both YAML
libraries in use; no whitespace, so `: ` cannot occur inside a value. -/
def plainValueChar (c : Char) : Bool :=
  c.isAlphanum ||
    ['/', ':', '.', '-', '_', '~', '?', '=', '&', '%', '+', '@'].contains c

/-- Words that YAML resolves to booleans or null rather than strings. -/
def yamlReservedWords : List Str :=
  [strOf "y", strOf "Y", strOf "yes", strOf "Yes", strOf "YES",
   strOf "n", strOf "N", strOf "no", strOf "No", strOf "NO",
   strOf "true", strOf "True", strOf "TRUE",
   strOf "false", strOf "False", strOf "FALSE",
   strOf "on", strOf "On", strOf "ON",
   strOf "off", strOf "Off", strOf "OFF",
   strOf "null", strOf "Null", strOf "NULL"]

/-- A string that both YAML libraries serialize and re-parse verbatim as
an unquoted scalar: nonempty, letter-first, plain characters, and not a
reserved word. -/
def plainScalar (s : Str) : Bool :=
  match s with
  | [] => false
  | c :: _ => c.isAlpha && s.all plainValueChar && !(yamlReservedWords.contains s)

/-- A simple alphanumeric, letter-first key. -/
def plainKey (s : Str) : Bool :=
  match s with
  | [] => false
  | c :: _ => c.isAlpha && s.all (fun ch => ch.isAlphanum) &&
      !(yamlReservedWords.contains s)

/-! ### The repository model and its operations -/

/-- JavaScript values appearing in a formatted record object. -/
inductive JVal
  | s : Str → JVal
  | time : Int → JVal
  | undefined : JVal
  | null : JVal

deriving DecidableEq, Repr

/-- Lookup in a JavaScript object built from an ordered list of
bindings: a later binding (e.g. from a trailing spread) overrides an
earlier one. -/
def objGet (o : List (Str × JVal)) (k : Str) : Option JVal :=
  ((o.filter (fun kv => kv.1 == k)).getLast?).map (fun kv => kv.2)

/-- Property access on the parsed YAML data object (later duplicate keys
override earlier ones, as in the JavaScript object). -/
def dataGet (data : List (Str × Str)) (k : Str) : Option Str :=
  ((data.filter (fun kv => kv.1 == k)).getLast?).map (fun kv => kv.2)

inductive PushErr
  | enonfastforward
  | other (code : Nat)

deriving DecidableEq, Repr

inductive RepoError
  | validationError
  | checkoutFailed
  | conflictsErr
  | stagedErr
  | uninitializedErr
  | invalidStateErr
  | notFound
  | notARedirect
  | typeErr
  | badBase58
  | gitErr (e : GitErr)
  | pushRejected (e : PushErr)
  | fetchFailed (code : Nat)
  | mergeFailed (code : Nat)

deriving DecidableEq, Repr

/-- `NodeGitRepository.STATE.NONE`. -/
def STATE_NONE : Nat := 0

/-- The state of the local repository as the `Repository` class observes
it: the object store, the tip of the tracked branch, HEAD, index state,
the libgit2 repository state, and the configuration (`baseUrl`, branch
and upstream names, `Signature.default` data). -/
structure RepoModel where
  store : Store
  branchTip : Option Str
  headCommit : Option Str
  hasConflicts : Bool
  stagedChanges : Bool
  repoState : Nat
  baseUrl : Option Str
  branch : Str
  upstream : Str
  sigName : Str
  sigTime : Int
  sigOffset : Int

deriving DecidableEq, Repr

/-- Model of `hasStagedChanges` (src/repository.js lines 33-47): `false`
when there is no HEAD commit, otherwise whether the tree-to-index diff
has patches (the `stagedChanges` flag). -/
def hasStagedChanges (st : RepoModel) : Bool :=
  match st.headCommit with
  | none => false
  | some _ => st.stagedChanges

/-- Node's `path.join` on the two segments used here. -/
def pathJoin (a b : Str) : Str :=
  if a.getLast? = some '/' then a ++ b else a ++ '/' :: b

def jvalOfOpt : Option Str → JVal
  | some s => .s s
  | none => .undefined

/-- Model of `_getShortUrl` (src/repository.js lines 110-134): with a
configured `baseUrl` it joins it with the short id (`path.join` throws
if the short id were `undefined`); without one, the GitHub-remote
derivation is modelled as finding no match and yielding `null`. -/
def getShortUrl (st : RepoModel) (shortId : Option Str) : Except RepoError JVal :=
  match st.baseUrl with
  | some b =>
    match shortId with
    | some s => .ok (.s (pathJoin b s))
    | none => .error .typeErr
  | none => .ok .null

/-- Model of `Repository._formatRedirectCommit` (src/repository.js lines
145-173): parse the trimmed message, reject it unless `data.url` is a
valid URL, derive `id`, `shortId`, `shortUrl`, `created`, `creator`, and
build the record object with the parsed data spread last. -/
def formatRedirectCommit (st : RepoModel) (commit : GCommit) :
    Except RepoError (List (Str × JVal)) :=
  let parsed := matterParse (jsTrim commit.message)
  let description := parsed.1
  let data := parsed.2
  if !(isValidURL (dataGet data (strOf "url"))) then .error .notARedirect
  else
    match getShortId st.store commit 40 with
    | .error e => .error (.gitErr e)
    | .ok idOpt =>
      match getShortId st.store commit MINIMUM_HASH with
      | .error e => .error (.gitErr e)
      | .ok shortIdOpt =>
        let offset := commit.authorOffset * 60
        let created := (commit.authorTime + offset) * 1000
        match getShortUrl st shortIdOpt with
        | .error e => .error e
        | .ok shortUrl =>
          .ok ([(strOf "id", jvalOfOpt idOpt),
                (strOf "shortId", jvalOfOpt shortIdOpt),
                (strOf "shortUrl", shortUrl),
                (strOf "description", .s description),
                (strOf "created", .time created),
                (strOf "creator", .s commit.authorName)] ++
               data.map (fun kv => (kv.1, JVal.s kv.2)))

/-- Model of `Repository.get` (src/repository.js lines 182-198). -/
def Repository.get (st : RepoModel) (id : Str) :
    Except RepoError (List (Str × JVal)) :=
  if id = [] then .error .notFound
  else
    match base58decode id with
    | none => .error .badBase58
    | some bytes =>
      match getCommitFromShortCommitId st.store (bytesToHex bytes) with
      | .error e => .error (.gitErr e)
      | .ok (none, _) => .error .notFound
      | .ok (some commit, _) => formatRedirectCommit st commit

/-! ### History traversal (`Repository.all`, src/repository.js 200-242)

The libgit2 revwalk with `SORT.TIME` pops the newest-by-committer-time
commit from its frontier, then enqueues that commit's unseen parents;
`SORT.REVERSE` reverses the finished list.  A parent therefore becomes
visible only after one of its children has been yielded. -/

def commitTimeOf (store : Store) (h : Str) : Int :=
  match store.find? (fun c => c.hash == h) with
  | some c => c.commitTime
  | none => 0

def parentsOf (store : Store) (h : Str) : List Str :=
  match store.find? (fun c => c.hash == h) with
  | some c => c.parents
  | none => []

/-- Remove the newest-committer-time entry from the frontier (ties go to
the earlier-queued entry). -/
def pickMax (store : Store) : List Str → Option (Str × List Str)
  | [] => none
  | h :: rest =>
    match pickMax store rest with
    | none => some (h, [])
    | some (m, others) =>
      if commitTimeOf store m ≤ commitTimeOf store h then some (h, rest)
      else some (m, h :: others)

/-- The time-sorted revwalk: pop the newest frontier commit, enqueue its
unseen parents, repeat.  The fuel bounds the number of pops and is
chosen large enough in `revwalkTimeReverse`. -/
def walkFrontier (store : Store) : Nat → List Str → List Str → List Str
  | 0, _, _ => []
  | fuel + 1, frontier, seen =>
    match pickMax store frontier with
    | none => []
    | some (h, rest) =>
      let ps := (parentsOf store h).filter (fun p => !(seen.contains p))
      h :: walkFrontier store fuel (rest ++ ps) (seen ++ ps)

/-- `walker.sorting(Revwalk.SORT.TIME, Revwalk.SORT.REVERSE)` starting
from the pushed tip: the time-descending walk, reversed. -/
def revwalkTimeReverse (store : Store) (tip : Str) : List Str :=
  (walkFrontier store (store.length + 1) [tip] [tip]).reverse

/-- One iteration of the `while` loop of `all`: look the commit up and
format it; any failure is swallowed by the `catch` and the commit is
skipped. -/
def recordAt (st : RepoModel) (h : Str) : Option (List (Str × JVal)) :=
  match st.store.find? (fun c => c.hash == h) with
  | none => none
  | some c =>
    match formatRedirectCommit st c with
    | .ok r => some r
    | .error _ => none

/-- Model of an unranged `Repository.all` traversal (no `from`/`until`):
`until` defaults to the tracked branch tip (`getBranchCommit` rejects if
the branch is missing), and the generator yields the formatted records
of the reversed time-sorted walk, skipping commits that fail to format. -/
def Repository.all (st : RepoModel) :
    Except RepoError (List (List (Str × JVal))) :=
  match st.branchTip with
  | none => .error .notFound
  | some tip => .ok ((revwalkTimeReverse st.store tip).filterMap (recordAt st))

/-- The derived `created` values (author time plus offset, in
milliseconds) of the records an unranged traversal yields, in order. -/
def allCreatedTimes (st : RepoModel) : List Int :=
  match st.branchTip with
  | none => []
  | some tip =>
    (revwalkTimeReverse st.store tip).filterMap (fun h =>
      match st.store.find? (fun c => c.hash == h) with
      | none => none
      | some c =>
        match formatRedirectCommit st c with
        | .ok _ => some ((c.authorTime + c.authorOffset * 60) * 1000)
        | .error _ => none)

/-! ### Write path (`Repository.create`) and sync (`Repository.commit`) -/

inductive SyncAction
  | pushA (refspecs : List Str)
  | fetchA (refspecs : List Str)
  | mergeA (toBranch : Str) (fromRef : Str)

deriving DecidableEq, Repr

/-- The push refspec built in `Repository.commit` (lines 310 and 323). -/
def pushRefspec (b : Str) : Str :=
  strOf "refs/heads/" ++ b ++ ':' :: (strOf "refs/heads/" ++ b)

/-- The fetch refspec of line 316 (note the source's `refs/head/` on the
destination side, kept verbatim). -/
def fetchRefspec (u b : Str) : Str :=
  strOf "remotes/" ++ u ++ '/' :: b ++ ':' :: (strOf "refs/head/" ++ b)

/-- The merge source ref of lines 318-321. -/
def mergeFromRef (u b : Str) : Str := strOf "refs/remotes/" ++ u ++ '/' :: b

/-- Outcomes the remote produces for one `Repository.commit` run: the
result of the first push, of the fetch, of the merge (with its effect on
the local repository), and of the retried push. -/
structure SyncEnv where
  firstPush : Option PushErr
  fetchResult : Option Nat
  mergeResult : Option Nat
  mergeEffect : RepoModel → RepoModel
  retryPush : Option PushErr

/-- Model of `Repository.commit` (src/repository.js lines 296-325): push
the tracked branch; on any error other than `ENONFASTFORWARD` rethrow;
otherwise fetch, merge the remote branch into the local one, and push
again with no further handler.  The second component is the trace of
remote operations performed. -/
def Repository.commit (env : SyncEnv) (st : RepoModel) :
    Except RepoError RepoModel × List SyncAction :=
  match env.firstPush with
  | none => (.ok st, [.pushA [pushRefspec st.branch]])
  | some e =>
    if e ≠ PushErr.enonfastforward then
      (.error (.pushRejected e), [.pushA [pushRefspec st.branch]])
    else
      match env.fetchResult with
      | some code =>
        (.error (.fetchFailed code),
         [.pushA [pushRefspec st.branch], .fetchA [fetchRefspec st.upstream st.branch]])
      | none =>
        match env.mergeResult with
        | some code =>
          (.error (.mergeFailed code),
           [.pushA [pushRefspec st.branch], .fetchA [fetchRefspec st.upstream st.branch],
            .mergeA st.branch (mergeFromRef st.upstream st.branch)])
        | none =>
          let st2 := env.mergeEffect st
          match env.retryPush with
          | some e2 =>
            (.error (.pushRejected e2),
             [.pushA [pushRefspec st.branch], .fetchA [fetchRefspec st.upstream st.branch],
              .mergeA st.branch (mergeFromRef st.upstream st.branch),
              .pushA [pushRefspec st2.branch]])
          | none =>
            (.ok st2,
             [.pushA [pushRefspec st.branch], .fetchA [fetchRefspec st.upstream st.branch],
              .mergeA st.branch (mergeFromRef st.upstream st.branch),
              .pushA [pushRefspec st2.branch]])

/-- In `create`, the test `if (!repo.getHeadCommit())` does not await the
promise; a Promise object is always truthy in JavaScript, so the
negation is always false and the guarded throw is unreachable. -/
def promiseIsFalsy : Bool := false

/-- Model of `Repository.create` (src/repository.js lines 244-294).  The
content hash the object store computes for the new commit is the
parameter `newHash`; `Signature.default` supplies the signature data
held in the model state; `env` drives `this.commit()` when
`shouldCommit` is set. -/
def Repository.create (st : RepoModel) (url : Option Str) (description : Option Str)
    (shouldCommit : Bool) (extra : List (Str × Str)) (newHash : Str) (env : SyncEnv) :
    Except RepoError (List (Str × JVal) × RepoModel) :=
  if !(isValidURL url) then .error .validationError
  else
    match st.branchTip with
    | none => .error .checkoutFailed
    | some tip =>
      let st1 := { st with headCommit := some tip }
      let metadata := (strOf "url", url.getD []) :: extra
      let descr := description.getD []
      let message := strOf "---\n" ++ yamlStringify metadata ++ strOf "---\n" ++ descr
      if st1.hasConflicts then .error .conflictsErr
      else if hasStagedChanges st1 then .error .stagedErr
      else if promiseIsFalsy then .error .uninitializedErr
      else
        let st2 := { st1 with repoState := STATE_NONE }
        if st2.repoState ≠ STATE_NONE then .error .invalidStateErr
        else
          let newCommit : GCommit :=
            { hash := newHash, parents := st2.headCommit.toList, message := message,
              authorName := st.sigName, authorTime := st.sigTime,
              authorOffset := st.sigOffset, commitTime := st.sigTime }
          let st3 : RepoModel :=
            { st2 with
              store := st2.store ++ [newCommit]
              branchTip := some newHash
              headCommit := some newHash }
          if shouldCommit then
            match Repository.commit env st3 with
            | (.error e, _) => .error e
            | (.ok st4, _) =>
              match formatRedirectCommit st4 newCommit with
              | .error e => .error e
              | .ok r => .ok (r, st4)
          else
            match formatRedirectCommit st3 newCommit with
            | .error e => .error e
            | .ok r => .ok (r, st3)

/-! ### Concrete fixtures -/

/-- Collision pair: both ids start `aaaa` and diverge at the 5th hex
character. -/
def exHashA : Str := strOf "aaaa000000000000000000000000000000000000"

def exHashB : Str := strOf "aaaa100000000000000000000000000000000000"

def exCommitA : GCommit :=
  ⟨exHashA, [], strOf "---\nurl: http://a\n---\nx", strOf "me", 10, 0, 10⟩

def exCommitB : GCommit :=
  ⟨exHashB, [exHashA], strOf "---\nurl: http://b\n---\ny", strOf "me", 20, 0, 20⟩

def exStore : Store := [exCommitA, exCommitB]

/-- A benign remote: the first push succeeds. -/
def exEnv : SyncEnv := ⟨none, none, none, id, none⟩

def exHash0 : Str := strOf "1234567890abcdef1234567890abcdef12345678"

def exCommit0 : GCommit :=
  ⟨exHash0, [], strOf "---\nurl: http://z\n---\n", strOf "me", 5, 0, 5⟩

/-- A small healthy repository: one record commit, clean index. -/
def exRepo : RepoModel :=
  ⟨[exCommit0], some exHash0, some exHash0, false, false, STATE_NONE,
   none, strOf "master", strOf "origin", strOf "me", 9, 0⟩

def exHashNew : Str := strOf "fedcba0987654321fedcba0987654321fedcba09"

/-- A commit whose message has no front matter and no `url` key. -/
def exPlainHash : Str := strOf "9999999999999999999999999999999999999999"

def exPlainCommit : GCommit :=
  ⟨exPlainHash, [exHash0], strOf "hello", strOf "me", 7, 0, 7⟩

def exRepo3 : RepoModel :=
  ⟨[exCommit0, exPlainCommit], some exPlainHash, some exPlainHash, false, false,
   STATE_NONE, none, strOf "master", strOf "origin", strOf "me", 9, 0⟩

/-- Parent with a later committer time than its child: the clock skew
that breaks time-ordered traversal. -/
def exParentHash : Str := strOf "1111111111111111111111111111111111111111"

def exChildHash : Str := strOf "2222222222222222222222222222222222222222"

def exParent : GCommit :=
  ⟨exParentHash, [], strOf "---\nurl: http://p\n---\n", strOf "me", 50, 0, 50⟩

def exChild : GCommit :=
  ⟨exChildHash, [exParentHash], strOf "---\nurl: http://c\n---\n", strOf "me", 5, 0, 5⟩

def exWalkRepo : RepoModel :=
  ⟨[exParent, exChild], some exChildHash, some exChildHash, false, false,
   STATE_NONE, none, strOf "master", strOf "origin", strOf "me", 9, 0⟩

/-- A commit whose header block carries an `id` extension key. -/
def exHdrHash : Str := strOf "7777777777777777777777777777777777777777"

def exHdrCommit : GCommit :=
  ⟨exHdrHash, [], strOf "---\nurl: http://a\nid: zz\n---\nhi", strOf "me", 3, 0, 3⟩

def exRepo10 : RepoModel :=
  ⟨[exHdrCommit], some exHdrHash, some exHdrHash, false, false, STATE_NONE,
   none, strOf "master", strOf "origin", strOf "me", 9, 0⟩

/-- The record `formatRedirectCommit` produces for `exHdrCommit`. -/
def exHdrRecord : List (Str × JVal) :=
  match formatRedirectCommit exRepo10 exHdrCommit with
  | .ok r => r
  | .error _ => []

/-- The decode-and-resolve chain of `Repository.get` (base58-decode the
id, render the bytes as hex, resolve through the Commit Resolver). -/
def decodeResolve (store : Store) (id : Str) : Option GCommit :=
  match base58decode id with
  | none => none
  | some bytes => resolveOpt store (bytesToHex bytes)

/-! ### Round-trip lemmas for the record codec -/

/-- Does the string start with a dash? -/
def startsWithDash : Str → Bool
  | [] => false
  | d :: _ => d == '-'

/-- No newline in the string is immediately followed by a dash (so the
close delimiter `\n---` cannot occur except where placed explicitly). -/
def nlOk : Str → Bool
  | [] => true
  | c :: t => (!(c == '\n') || !(startsWithDash t)) && nlOk t

/-- The `key: value` lines of a metadata map, joined by newlines (equal
to `yamlStringify` minus its trailing newline). -/
def joinEntries : List (Str × Str) → Str
  | [] => []
  | kv :: [] => entryStr kv
  | kv :: kv2 :: rest => entryStr kv ++ '\n' :: joinEntries (kv2 :: rest)

/-- The commit object `create` writes: metadata is the `url` binding
followed by the extension fields, the description follows the second
delimiter, and `Signature.default` supplies author and committer. -/
def mkNewCommit (st : RepoModel) (tip url desc : Str) (extras : List (Str × Str))
    (newHash : Str) : GCommit :=
  { hash := newHash
    parents := [tip]
    message := strOf "---\n" ++ yamlStringify ((strOf "url", url) :: extras) ++
      strOf "---\n" ++ desc
    authorName := st.sigName
    authorTime := st.sigTime
    authorOffset := st.sigOffset
    commitTime := st.sigTime }

/-- The repository state after a successful `create`: the new commit is
appended and both the branch tip and HEAD advance to it. -/
def createdState (st : RepoModel) (tip url desc : Str) (extras : List (Str × Str))
    (newHash : Str) : RepoModel :=
  { st with
    headCommit := some newHash
    repoState := STATE_NONE
    store := st.store ++ [mkNewCommit st tip url desc extras newHash]
    branchTip := some newHash }

/-! ### Arithmetic lemmas for the codecs -/

theorem toDigitsRev_eq_digits (b : Nat) (hb : 2 ≤ b) :
    ∀ fuel n, n < b ^ fuel → toDigitsRev b fuel n = Nat.digits b n := by
  intro fuel
  induction fuel with
  | zero =>
    intro n hn
    simp only [pow_zero, Nat.lt_one_iff] at hn
    subst hn
    simp [toDigitsRev]
  | succ fuel ih =>
    intro n hn
    by_cases h0 : n = 0
    · subst h0; simp [toDigitsRev]
    · have hb1 : 1 < b := hb
      rw [toDigitsRev, if_neg h0, Nat.digits_def' hb1 (Nat.pos_of_ne_zero h0)]
      have hdiv : n / b < b ^ fuel := by
        rw [Nat.div_lt_iff_lt_mul (by omega)]
        calc n < b ^ (fuel + 1) := hn
        _ = b ^ fuel * b := by ring
      rw [ih (n / b) hdiv]

theorem foldl_mul_add (b : Nat) :
    ∀ (L : List Nat) (a : Nat),
      L.foldl (fun n d => n * b + d) a = a * b ^ L.length + Nat.ofDigits b L.reverse := by
  intro L
  induction L with
  | nil => intro a; simp [Nat.ofDigits]
  | cons d L ih =>
    intro a
    simp only [List.foldl_cons, List.reverse_cons, ih]
    rw [Nat.ofDigits_append]
    simp [Nat.ofDigits, pow_succ]
    ring

theorem bytesToNat_eq_ofDigits (bs : List Nat) :
    bytesToNat bs = Nat.ofDigits 256 bs.reverse := by
  have := foldl_mul_add 256 bs 0
  simpa [bytesToNat] using this

theorem ofDigits_lt_base_pow_len (b : Nat) (hb : 2 ≤ b) :
    ∀ L : List Nat, (∀ d ∈ L, d < b) → Nat.ofDigits b L < b ^ L.length := by
  intro L
  induction L with
  | nil => intro _; simp [Nat.ofDigits]
  | cons d L ih =>
    intro h
    have hd : d < b := h d (by simp)
    have hL : Nat.ofDigits b L < b ^ L.length := ih (fun x hx => h x (by simp [hx]))
    have : (Nat.ofDigits b L : ℕ) ≤ b ^ L.length - 1 := by omega
    calc Nat.ofDigits b (d :: L) = d + b * Nat.ofDigits b L := by
          simp [Nat.ofDigits]
    _ ≤ d + b * (b ^ L.length - 1) := by
          have := Nat.mul_le_mul_left b this
          omega
    _ < b ^ (L.length + 1) := by
          have hpow : 1 ≤ b ^ L.length := Nat.one_le_pow _ _ (by omega)
          have : b * (b ^ L.length - 1) + b = b * b ^ L.length := by
            rw [Nat.mul_sub_one]
            have : b ≤ b * b ^ L.length := Nat.le_mul_of_pos_right b (by omega)
            omega
          have hbb : b * b ^ L.length = b ^ (L.length + 1) := by ring
          omega

theorem b58Index_b58Char : ∀ d, d < 58 → b58Index (b58Char d) = some d := by decide

theorem b58Char_ne_one : ∀ d, d < 58 → d ≠ 0 → b58Char d ≠ '1' := by decide

theorem mapM_b58Index_map_b58Char :
    ∀ L : List Nat, (∀ d ∈ L, d < 58) → (L.map b58Char).mapM b58Index = some L := by
  intro L
  induction L with
  | nil => intro _; rfl
  | cons d L ih =>
    intro h
    have hd := h d (by simp)
    simp only [List.map_cons, List.mapM_cons, b58Index_b58Char d hd]
    rw [ih (fun x hx => h x (by simp [hx]))]
    rfl

theorem splitOnes (a t : Str) (ha : ∀ c ∈ a, c = '1')
    (ht : ∀ c, t.head? = some c → c ≠ '1') :
    (a ++ t).takeWhile (fun c => c == '1') = a ∧
      (a ++ t).dropWhile (fun c => c == '1') = t := by
  induction a with
  | nil =>
    cases t with
    | nil => exact ⟨rfl, rfl⟩
    | cons c t =>
      have hc : c ≠ '1' := ht c rfl
      constructor
      · simp [List.takeWhile_cons, hc]
      · simp [List.dropWhile_cons, hc]
  | cons x a ih =>
    have hx : x = '1' := ha x (by simp)
    subst hx
    have ⟨h1, h2⟩ := ih (fun c hc => ha c (by simp [hc]))
    constructor
    · simpa [List.takeWhile_cons] using h1
    · simpa [List.dropWhile_cons] using h2

theorem headDropWhileNot (p : Nat → Bool) :
    ∀ (l : List Nat) (c : Nat), (l.dropWhile p).head? = some c → p c = false := by
  intro l
  induction l with
  | nil => intro c hc; simp [List.dropWhile] at hc
  | cons x t ih =>
    intro c hc
    by_cases hp : p x
    · rw [List.dropWhile_cons_of_pos hp] at hc
      exact ih c hc
    · rw [List.dropWhile_cons_of_neg hp] at hc
      simp at hc
      subst hc
      simpa using hp

theorem bytesToNat_dropZeros (bs : List Nat) :
    bytesToNat (bs.dropWhile (fun b => b == 0)) = bytesToNat bs := by
  induction bs with
  | nil => rfl
  | cons x t ih =>
    by_cases hx : x = 0
    · subst hx
      rw [List.dropWhile_cons_of_pos (by simp)]
      simpa [bytesToNat] using ih
    · rw [List.dropWhile_cons_of_neg (by simp [hx])]

theorem mapConstZero :
    ∀ l : List Nat, (∀ x ∈ l, x = 0) →
      (l.map (fun _ => '1')).map (fun _ => (0 : Nat)) = l := by
  intro l
  induction l with
  | nil => intro _; rfl
  | cons y t ih =>
    intro h
    have hy := h y (by simp)
    simp only [List.map_cons]
    rw [ih (fun x hx => h x (by simp [hx]))]
    simp [hy]

/-- `base58.decode` inverts `base58.encode` on byte lists. -/
theorem base58_roundtrip (bs : List Nat) (h : ∀ b ∈ bs, b < 256) :
    base58decode (base58encode bs) = some bs := by
  classical
  set zs := bs.takeWhile (fun b => b == 0) with hzs
  set rest := bs.dropWhile (fun b => b == 0) with hrest
  have hsplit : zs ++ rest = bs :=
    List.takeWhile_append_dropWhile (fun b => b == 0) bs
  have hones : ∀ c ∈ zs.map (fun _ => '1'), c = '1' := by
    intro c hc
    simp at hc
    exact hc.2
  have hzmem : ∀ x ∈ zs, x = 0 := by
    intro x hx
    have := List.mem_takeWhile_imp hx
    simpa using this
  have hmap0 : (zs.map (fun _ => '1')).map (fun _ => (0 : Nat)) = zs :=
    mapConstZero zs hzmem
  have hv : bytesToNat bs = Nat.ofDigits 256 rest.reverse := by
    rw [← bytesToNat_dropZeros, ← hrest, bytesToNat_eq_ofDigits]
  have hrest256 : ∀ b ∈ rest, b < 256 := by
    intro b hb
    exact h b (List.Sublist.mem hb (List.dropWhile_sublist _))
  have hvlt : bytesToNat bs < 58 ^ (2 * bs.length + 1) := by
    have h1 : Nat.ofDigits 256 rest.reverse < 256 ^ rest.reverse.length :=
      ofDigits_lt_base_pow_len 256 (by omega) _ (fun d hd => hrest256 d (List.mem_reverse.mp hd))
    have h2 : rest.reverse.length ≤ bs.length := by
      rw [List.length_reverse]
      exact List.Sublist.length_le (List.dropWhile_sublist _)
    have h3 : (256 : Nat) ^ rest.reverse.length ≤ 256 ^ bs.length :=
      Nat.pow_le_pow_right (by omega) h2
    have h4 : (256 : Nat) ^ bs.length ≤ 3364 ^ bs.length :=
      Nat.pow_le_pow_left (by omega) _
    have h5 : (3364 : Nat) ^ bs.length = 58 ^ (2 * bs.length) := by
      have h58 : (3364 : Nat) = 58 ^ 2 := by norm_num
      rw [h58, ← pow_mul]
    have h6 : (58 : Nat) ^ (2 * bs.length) ≤ 58 ^ (2 * bs.length + 1) :=
      Nat.pow_le_pow_right (by omega) (by omega)
    rw [hv]
    omega
  have hdig : toDigitsRev 58 (2 * bs.length + 1) (bytesToNat bs) =
      Nat.digits 58 (bytesToNat bs) :=
    toDigitsRev_eq_digits 58 (by omega) _ _ hvlt
  by_cases hre : rest = []
  · -- all bytes are zero
    have hv0 : bytesToNat bs = 0 := by
      rw [hv, hre]
      simp [Nat.ofDigits]
    have hbs : bs = zs := by rw [← hsplit, hre, List.append_nil]
    unfold base58encode base58decode
    rw [← hzs, hv0]
    have hzero : toDigitsRev 58 (2 * bs.length + 1) 0 = [] := by
      cases bs.length <;> simp [toDigitsRev]
    rw [hzero]
    simp only [List.reverse_nil, List.map_nil, List.append_nil]
    have hsp := splitOnes (zs.map (fun _ => '1')) [] hones (by intro c hc; simp at hc)
    rw [List.append_nil] at hsp
    rw [hsp.2, hsp.1]
    simp only [List.mapM_nil, List.length_nil, List.foldl_nil]
    rw [show toDigitsRev 256 0 0 = [] from rfl]
    simp only [List.reverse_nil, List.append_nil, Option.some.injEq]
    rw [hmap0]
    exact hbs.symm
  · -- at least one nonzero byte
    obtain ⟨c, t, hct⟩ := List.exists_cons_of_ne_nil hre
    have hhead : rest.head? = some c := by rw [hct]; rfl
    have hcne : c ≠ 0 := by
      have := headDropWhileNot (fun b => b == 0) bs c (by rw [← hrest]; exact hhead)
      simpa using this
    have hgetlast : ∀ (hne : rest.reverse ≠ []), rest.reverse.getLast hne ≠ 0 := by
      intro hne
      have h1 : rest.reverse.getLast? = some c := by rw [List.getLast?_reverse, hhead]
      have h2 : rest.reverse.getLast? = some (rest.reverse.getLast hne) :=
        List.getLast?_eq_getLast _ hne
      have h3 : rest.reverse.getLast hne = c := by
        rw [h1] at h2
        exact (Option.some.injEq _ _).mp h2.symm
      rw [h3]
      exact hcne
    have hd256 : Nat.digits 256 (bytesToNat bs) = rest.reverse := by
      rw [hv]
      exact Nat.digits_ofDigits 256 (by omega) rest.reverse
        (fun d hd => hrest256 d (List.mem_reverse.mp hd)) hgetlast
    have hvne : bytesToNat bs ≠ 0 := by
      intro hcon
      rw [hcon] at hd256
      simp only [Nat.digits_zero] at hd256
      have : rest = [] := List.reverse_eq_nil_iff.mp hd256.symm
      exact hre this
    set L := Nat.digits 58 (bytesToNat bs) with hL
    have hLne58 : L ≠ [] := Nat.digits_ne_nil_iff_ne_zero.mpr hvne
    have hLlt : ∀ d ∈ L, d < 58 := fun d hd => Nat.digits_lt_base (by omega) hd
    have hlast : L.getLast hLne58 ≠ 0 := Nat.getLast_digit_ne_zero 58 hvne
    have hheadtail : ∀ x, (L.reverse.map b58Char).head? = some x → x ≠ '1' := by
      intro x hx
      rw [List.head?_map, List.head?_reverse] at hx
      have h1 : L.getLast? = some (L.getLast hLne58) := List.getLast?_eq_getLast L hLne58
      rw [h1] at hx
      simp at hx
      rw [← hx]
      exact b58Char_ne_one _ (hLlt _ (List.getLast_mem hLne58)) hlast
    unfold base58encode base58decode
    rw [← hzs, hdig]
    have hsp := splitOnes (zs.map (fun _ => '1')) (L.reverse.map b58Char) hones hheadtail
    rw [hsp.1, hsp.2]
    rw [mapM_b58Index_map_b58Char L.reverse (fun d hd => hLlt d (List.mem_reverse.mp hd))]
    simp only [Option.some.injEq]
    have hfold : L.reverse.foldl (fun acc d => acc * 58 + d) 0 = bytesToNat bs := by
      rw [foldl_mul_add 58 L.reverse 0, List.reverse_reverse]
      simp only [Nat.zero_mul, Nat.zero_add]
      rw [hL]
      exact Nat.ofDigits_digits 58 (bytesToNat bs)
    rw [hfold]
    have h256lt : bytesToNat bs < 256 ^ L.reverse.length := by
      have h1 : Nat.ofDigits 58 L < 58 ^ L.length := ofDigits_lt_base_pow_len 58 (by omega) L hLlt
      have h2 : Nat.ofDigits 58 L = bytesToNat bs := by rw [hL]; exact Nat.ofDigits_digits 58 _
      have h3 : (58 : Nat) ^ L.length ≤ 256 ^ L.length := Nat.pow_le_pow_left (by omega) _
      rw [List.length_reverse]
      omega
    rw [toDigitsRev_eq_digits 256 (by omega) _ _ h256lt, hd256, List.reverse_reverse]
    rw [hmap0]
    exact hsplit

theorem hexVal_lt_LHEX : ∀ c ∈ LHEX, hexVal c < 16 := by decide

theorem hexDigitChar_hexVal : ∀ c ∈ LHEX, hexDigitChar (hexVal c) = c := by decide

theorem hexToBytes_lt : ∀ p : Str, (∀ c ∈ p, c ∈ LHEX) → ∀ b ∈ hexToBytes p, b < 256
  | [], _, b, hb => by simp [hexToBytes] at hb
  | [c], _, b, hb => by simp [hexToBytes] at hb
  | c1 :: c2 :: rest, h, b, hb => by
    have h2 : hexVal c2 < 16 := hexVal_lt_LHEX c2 (h c2 (by simp))
    have h1 : hexVal c1 < 16 := hexVal_lt_LHEX c1 (h c1 (by simp))
    rw [hexToBytes] at hb
    rcases List.mem_cons.mp hb with hb | hb
    · omega
    · exact hexToBytes_lt rest (fun c hc => h c (by simp [hc])) b hb

/-- Hex encoding round-trips through bytes on even-length lowercase hex
strings (the form of every git object id and prefix used here). -/
theorem bytesToHex_hexToBytes :
    ∀ p : Str, (∀ c ∈ p, c ∈ LHEX) → p.length % 2 = 0 →
      bytesToHex (hexToBytes p) = p
  | [], _, _ => rfl
  | [c], _, hlen => by simp at hlen
  | c1 :: c2 :: rest, h, hlen => by
    have h1 : c1 ∈ LHEX := h c1 (by simp)
    have h2 : c2 ∈ LHEX := h c2 (by simp)
    have hv2 : hexVal c2 < 16 := hexVal_lt_LHEX c2 h2
    have ih := bytesToHex_hexToBytes rest (fun c hc => h c (by simp [hc]))
      (by simp only [List.length_cons] at hlen ⊢; omega)
    have hdiv : (hexVal c1 * 16 + hexVal c2) / 16 = hexVal c1 := by
      rw [Nat.mul_comm, Nat.mul_add_div (by omega), Nat.div_eq_of_lt hv2]
      omega
    have hmod : (hexVal c1 * 16 + hexVal c2) % 16 = hexVal c2 := by
      rw [Nat.mul_comm, Nat.mul_add_mod, Nat.mod_eq_of_lt hv2]
    rw [hexToBytes]
    unfold bytesToHex at ih ⊢
    simp only [List.map_cons, List.flatten_cons]
    rw [ih]
    unfold byteToHex
    rw [hdiv, hmod, hexDigitChar_hexVal c1 h1, hexDigitChar_hexVal c2 h2]
    rfl

/-! ### Resolution lemmas -/

theorem LHEX_hexDigit : ∀ c ∈ LHEX, isHexDigitChar c = true := by decide

theorem strIsPfx_iff : ∀ p s : Str, strIsPfx p s = true ↔ p <+: s
  | [], s => by simp [strIsPfx]
  | a :: as, [] => by simp [strIsPfx]
  | a :: as, b :: bs => by
    rw [strIsPfx, Bool.and_eq_true, beq_iff_eq, strIsPfx_iff as bs, List.cons_prefix_cons]

theorem filter_hashEq_of_nodup :
    ∀ (l : List GCommit), (l.map (fun c => c.hash)).Nodup →
      ∀ c ∈ l, ∀ (p : GCommit → Bool),
        (∀ d ∈ l, (p d = true ↔ d.hash = c.hash)) → l.filter p = [c] := by
  intro l
  induction l with
  | nil => intro _ c hc; simp at hc
  | cons d t ih =>
    intro hnd c hc p hp
    simp only [List.map_cons, List.nodup_cons] at hnd
    rcases List.mem_cons.mp hc with hcd | hct
    · subst hcd
      have hpd : p c = true := (hp c (by simp)).mpr rfl
      rw [List.filter_cons_of_pos hpd]
      have hrest : t.filter p = [] := by
        rw [List.filter_eq_nil_iff]
        intro x hx hpx
        have hxc : x.hash = c.hash := (hp x (by simp [hx])).mp hpx
        exact hnd.1 (by rw [← hxc]; exact List.mem_map_of_mem _ hx)
      rw [hrest]
    · have hpd : p d = false := by
        by_contra hcon
        have := (hp d (by simp)).mp (by simpa using hcon)
        exact hnd.1 (by rw [this]; exact List.mem_map_of_mem _ hct)
      rw [List.filter_cons_of_neg (by simp [hpd])]
      exact ih hnd.2 c hct p (fun x hx => hp x (by simp [hx]))

theorem mem_insertByHash (c x : GCommit) :
    ∀ l : List GCommit, x ∈ insertByHash c l ↔ x = c ∨ x ∈ l := by
  intro l
  induction l with
  | nil => simp [insertByHash]
  | cons d ds ih =>
    unfold insertByHash
    split
    · simp only [List.mem_cons]
    · rw [List.mem_cons, ih, List.mem_cons]
      tauto

theorem mem_sortByHash (x : GCommit) :
    ∀ l : List GCommit, x ∈ sortByHash l ↔ x ∈ l := by
  intro l
  induction l with
  | nil => simp [sortByHash]
  | cons d ds ih =>
    unfold sortByHash at ih ⊢
    rw [List.foldr_cons, mem_insertByHash, ih, List.mem_cons]

theorem commitLookupPfx_mem (store : Store) (p : Str) (d : GCommit)
    (h : commitLookupPfx store p = .ok d) : d ∈ store := by
  unfold commitLookupPfx at h
  split at h
  · exact absurd h (by simp)
  · split at h
    · exact absurd h (by simp)
    · split at h
      · exact absurd h (by simp)
      · rename_i heq
        have : d ∈ commitsMatching store p := by
          rw [heq]
          simp_all
        exact List.mem_of_mem_filter this
      · exact absurd h (by simp)

theorem disambigateCommit_mem (store : Store) (p : Str) (x : GCommit)
    (h : (disambigateCommit store p).1 = some x) : x ∈ store := by
  unfold disambigateCommit at h
  by_cases hg : hexAtLeast4 p
  · rw [if_pos hg] at h
    simp only at h
    cases heq : sortByHash (commitsMatching store p) with
    | nil => rw [heq] at h; simp at h
    | cons e es =>
      rw [heq] at h
      simp only [Option.some.injEq] at h
      have he : e ∈ sortByHash (commitsMatching store p) := by rw [heq]; simp
      rw [← h]
      exact List.mem_of_mem_filter ((mem_sortByHash e _).mp he)
  · rw [if_neg hg] at h
    simp at h

theorem resolveOpt_mem (store : Store) (p : Str) (x : GCommit)
    (h : resolveOpt store p = some x) : x ∈ store := by
  unfold resolveOpt at h
  cases hres : getCommitFromShortCommitId store p with
  | error e => rw [hres] at h; simp at h
  | ok ob =>
    obtain ⟨o, b⟩ := ob
    rw [hres] at h
    simp only at h
    unfold getCommitFromShortCommitId at hres
    cases hlk : commitLookupPfx store p with
    | ok d =>
      rw [hlk] at hres
      simp only [Except.ok.injEq, Prod.mk.injEq] at hres
      rw [← hres.1] at h
      have hdx : d = x := by simpa using h
      rw [← hdx]
      exact commitLookupPfx_mem store p d hlk
    | error e =>
      rw [hlk] at hres
      cases e with
      | eambiguous =>
        simp only [Except.ok.injEq] at hres
        have : (disambigateCommit store p).1 = some x := by rw [hres]; exact h
        exact disambigateCommit_mem store p x this
      | enotfound => simp at hres
      | einvalid => simp at hres

theorem strIsPfx_take (l : Str) (n : Nat) : strIsPfx (l.take n) l = true :=
  (strIsPfx_iff _ _).mpr (List.take_prefix n l)

theorem take_all_hex (h : Str) (hh : ∀ ch ∈ h, ch ∈ LHEX) (m : Nat) :
    (h.take m).all isHexDigitChar = true := by
  rw [List.all_eq_true]
  intro ch hch
  exact LHEX_hexDigit ch (hh ch (List.take_subset m h hch))

theorem commitsMatching_self (store : Store) (hwf : storeWF store)
    (c : GCommit) (hc : c ∈ store) : commitsMatching store c.hash = [c] := by
  unfold commitsMatching
  apply filter_hashEq_of_nodup store hwf.1 c hc
  intro d hd
  constructor
  · intro hpfx
    have hp := (strIsPfx_iff _ _).mp hpfx
    exact (hp.eq_of_length (by rw [(hwf.2 c hc).1, (hwf.2 d hd).1])).symm
  · intro hdc
    rw [hdc]
    exact (strIsPfx_iff _ _).mpr (List.prefix_refl _)

theorem resolveOpt_of_ok {store : Store} {p : Str} {o : Option GCommit} {b : Bool}
    (h : getCommitFromShortCommitId store p = .ok (o, b)) : resolveOpt store p = o := by
  unfold resolveOpt
  rw [h]

/-- Resolving the full 40-character id of a commit in a well-formed store
finds exactly that commit, without ambiguity. -/
theorem resolveFull (store : Store) (hwf : storeWF store)
    (c : GCommit) (hc : c ∈ store) :
    getCommitFromShortCommitId store c.hash = .ok (some c, false) := by
  have hhex : c.hash.all isHexDigitChar = true := by
    rw [List.all_eq_true]
    intro ch hch
    exact LHEX_hexDigit ch ((hwf.2 c hc).2 ch hch)
  have hlen : c.hash.length = 40 := (hwf.2 c hc).1
  unfold getCommitFromShortCommitId commitLookupPfx
  rw [hhex, hlen]
  simp only [Bool.not_true, Bool.false_or, decide_eq_true_eq]
  rw [if_neg (by omega)]
  rw [if_neg (by omega)]
  rw [commitsMatching_self store hwf c hc]

/-- Resolving any hex prefix (length between 4 and 40) of a commit in the
store never raises: either the prefix is unique, or the disambiguation
fallback accepts it and returns the first candidate. -/
theorem resolve_take_ok (store : Store) (hwf : storeWF store)
    (c : GCommit) (hc : c ∈ store) (m : Nat) (hm4 : 4 ≤ m) (hm40 : m ≤ 40) :
    ∃ o b, getCommitFromShortCommitId store (c.hash.take m) = .ok (o, b) := by
  have hlen40 : c.hash.length = 40 := (hwf.2 c hc).1
  have hlen : (c.hash.take m).length = m := by
    rw [List.length_take, hlen40]
    omega
  have hhex : (c.hash.take m).all isHexDigitChar = true :=
    take_all_hex c.hash (hwf.2 c hc).2 m
  have hcm : c ∈ commitsMatching store (c.hash.take m) :=
    List.mem_filter.mpr ⟨hc, strIsPfx_take c.hash m⟩
  unfold getCommitFromShortCommitId commitLookupPfx
  rw [hhex, hlen]
  simp only [Bool.not_true, Bool.false_or, decide_eq_true_eq]
  rw [if_neg (by omega), if_neg (by omega)]
  cases hmm : commitsMatching store (c.hash.take m) with
  | nil => rw [hmm] at hcm; exact absurd hcm (by simp)
  | cons d ds =>
    cases ds with
    | nil => exact ⟨some d, false, rfl⟩
    | cons e es =>
      simp only []
      unfold disambigateCommit
      have hg : hexAtLeast4 (c.hash.take m) = true := by
        unfold hexAtLeast4
        rw [hhex, hlen]
        simp
        omega
      rw [if_pos hg]
      have hd : d ∈ sortByHash (commitsMatching store (c.hash.take m)) := by
        rw [mem_sortByHash, hmm]
        simp
      cases hs : sortByHash (commitsMatching store (c.hash.take m)) with
      | nil => rw [hs] at hd; exact absurd hd (by simp)
      | cons f fs => exact ⟨some f, true, rfl⟩

/-- Behaviour of the `getShortId` search loop on a commit of a
well-formed store: it returns the first even-length prefix (at least the
starting length, at most the full 40) that the resolver maps to the
commit itself, and such a prefix always exists because the full id
resolves uniquely. -/
theorem getShortIdGo_spec (store : Store) (hwf : storeWF store)
    (c : GCommit) (hc : c ∈ store) :
    ∀ fuel hl, 4 ≤ hl → hl ≤ 40 → hl % 2 = 0 → 42 ≤ hl + 2 * fuel →
      ∃ n, getShortIdGo store c.hash hl fuel = .ok (some (c.hash.take n)) ∧
        hl ≤ n ∧ n ≤ 40 ∧ n % 2 = 0 ∧
        resolveOpt store (c.hash.take n) = some c ∧
        ∀ m, hl ≤ m → m < n → m % 2 = 0 →
          resolveOpt store (c.hash.take m) ≠ some c := by
  intro fuel
  induction fuel with
  | zero =>
    intro hl h4 h40 he had
    omega
  | succ fuel ih =>
    intro hl h4 h40 he had
    have hlen : c.hash.length = 40 := (hwf.2 c hc).1
    rw [getShortIdGo]
    rw [if_pos (by omega : hl ≤ c.hash.length)]
    by_cases hl40 : hl = 40
    · subst hl40
      have h40eq : c.hash.take 40 = c.hash := List.take_of_length_le (by omega)
      rw [h40eq, resolveFull store hwf c hc]
      simp only []
      rw [if_pos trivial]
      refine ⟨40, ?_, by omega, by omega, by omega, ?_, ?_⟩
      · rw [h40eq]
      · rw [h40eq]
        exact resolveOpt_of_ok (resolveFull store hwf c hc)
      · intro m hm1 hm2 hm3
        omega
    · have hl38 : hl ≤ 38 := by omega
      obtain ⟨o, b, hok⟩ := resolve_take_ok store hwf c hc hl h4 (by omega)
      rw [hok]
      have hro : resolveOpt store (c.hash.take hl) = o := resolveOpt_of_ok hok
      cases o with
      | some x =>
        by_cases hx : x.hash = c.hash
        · have hxmem : x ∈ store := resolveOpt_mem store _ x hro
          have hxc : x = c := List.inj_on_of_nodup_map hwf.1 hxmem hc hx
          simp only []
          rw [if_pos hx]
          refine ⟨hl, rfl, by omega, by omega, he, ?_, ?_⟩
          · rw [hro, hxc]
          · intro m hm1 hm2 hm3
            omega
        · simp only []
          rw [if_neg hx]
          obtain ⟨n, hrec, hn1, hn2, hn3, hn4, hmin⟩ :=
            ih (hl + 2) (by omega) (by omega) (by omega) (by omega)
          refine ⟨n, hrec, by omega, hn2, hn3, hn4, ?_⟩
          intro m hm1 hm2 hm3
          by_cases hmhl : m = hl
          · subst hmhl
            rw [hro]
            intro hcon
            have : x = c := by simpa using hcon
            exact hx (by rw [this])
          · exact hmin m (by omega) hm2 hm3
      | none =>
        simp only []
        obtain ⟨n, hrec, hn1, hn2, hn3, hn4, hmin⟩ :=
          ih (hl + 2) (by omega) (by omega) (by omega) (by omega)
        refine ⟨n, hrec, by omega, hn2, hn3, hn4, ?_⟩
        intro m hm1 hm2 hm3
        by_cases hmhl : m = hl
        · subst hmhl
          rw [hro]
          simp
        · exact hmin m (by omega) hm2 hm3

/-- Claim C1, counterexample: in `exStore` the two commit ids share the
4-hex-character prefix `aaaa` and diverge at the 5th character, yet the
`shortId` computed for the first record encodes the ambiguous 4-character
prefix itself (the disambiguation fallback resolves `aaaa` to that very
commit), so its decoded hex prefix has length 4, not at least 6. -/
theorem C1_counterexample :
    storeWF exStore ∧
    exHashA.take 4 = exHashB.take 4 ∧
    exHashA.get? 4 ≠ exHashB.get? 4 ∧
    getShortId exStore exCommitA MINIMUM_HASH =
      .ok (some (base58encode (hexToBytes (strOf "aaaa")))) ∧
    (match base58decode (base58encode (hexToBytes (strOf "aaaa"))) with
     | some bs => (bytesToHex bs).length
     | none => 0) = 4 := by
  refine ⟨by decide, by decide, by decide, by decide, by decide⟩

/-- Claim C2: evaluation of `Repository.create` at the repository-state
checks.  The URL, conflicts and staged-changes checks each raise their
own error before any mutation, but on a mid-merge repository
(`repoState = 1`, i.e. `STATE.MERGE`) `create` succeeds and advances the
branch tip instead of raising: `stateCleanup()` erases the in-progress
state before `repo.state()` is consulted, and the uninitialized-repo
check cannot fire because its promise is never awaited. -/
theorem C2_code_evaluation :
    Repository.create { exRepo with hasConflicts := true }
      (some (strOf "http://example.com")) none false [] exHashNew exEnv =
      .error .conflictsErr ∧
    Repository.create { exRepo with stagedChanges := true }
      (some (strOf "http://example.com")) none false [] exHashNew exEnv =
      .error .stagedErr ∧
    Repository.create exRepo (some (strOf "not-a-url")) none false [] exHashNew exEnv =
      .error .validationError ∧
    ({ exRepo with repoState := 1 } : RepoModel).repoState ≠ STATE_NONE ∧
    (match Repository.create { exRepo with repoState := 1 }
      (some (strOf "http://example.com")) none false [] exHashNew exEnv with
     | .ok (_, st') => st'.branchTip == some exHashNew
     | .error _ => false) = true := by
  refine ⟨by decide, by decide, by decide, by decide, by decide⟩

/-- Claim C3, counterexample: `exPlainCommit`'s message has no valid
`url`, and a direct `get` by its id raises the decode failure `'Commit
is not a Redirect'` rather than `'Commit Not Found'`. -/
theorem C3_counterexample :
    Repository.get exRepo3 (base58encode (hexToBytes exPlainHash)) =
      .error .notARedirect ∧
    Repository.get exRepo3 (base58encode (hexToBytes exPlainHash)) ≠
      .error .notFound := by
  refine ⟨by decide, by decide⟩

/-- Claim C6, counterexample: creating a record whose description is
`"a "` (trailing blank) and looking it up by its id returns a record
whose description is `"a"`: `_formatRedirectCommit` trims the stored
message, so the description is not identical to the one passed in. -/
theorem C6_counterexample :
    (match Repository.create exRepo (some (strOf "http://a")) (some (strOf "a "))
        false [] exHashNew exEnv with
     | .ok (r, st') =>
        Repository.get st' (base58encode (hexToBytes exHashNew)) == .ok r &&
        !(objGet r (strOf "description") == some (.s (strOf "a "))) &&
        (objGet r (strOf "description") == some (.s (strOf "a")))
     | .error _ => false) = true := by decide

/-- Claim C9, counterexample: with a parent whose committer/author time
(50) exceeds its child's (5), the unranged traversal yields created
times `[50000, 5000]`, which is not non-decreasing: the walk can only
discover a parent after popping its child, so requesting TIME+REVERSE
ordering does not sort skewed timestamps. -/
theorem C9_counterexample :
    allCreatedTimes exWalkRepo = [50000, 5000] ∧
    ¬ List.Pairwise (fun a b => a ≤ b) (allCreatedTimes exWalkRepo) := by
  refine ⟨by decide, by decide⟩

/-- Claim C5: `sync` control flow.  A successful first push stops there;
a push failure other than non-fast-forward is rethrown with no fetch,
merge or retry; a non-fast-forward rejection is followed by exactly one
fetch of the remote's tracked branch, one merge into the local tracked
branch, and one retried push whose own failure (or a fetch/merge
failure) is raised to the caller; no run ever pushes more than twice. -/
theorem C5_sync_retry :
    ∀ (env : SyncEnv) (st : RepoModel),
      (env.firstPush = none →
        Repository.commit env st = (.ok st, [.pushA [pushRefspec st.branch]])) ∧
      (∀ code, env.firstPush = some (.other code) →
        Repository.commit env st =
          (.error (.pushRejected (.other code)), [.pushA [pushRefspec st.branch]])) ∧
      (∀ code, env.firstPush = some .enonfastforward → env.fetchResult = some code →
        Repository.commit env st =
          (.error (.fetchFailed code),
           [.pushA [pushRefspec st.branch],
            .fetchA [fetchRefspec st.upstream st.branch]])) ∧
      (∀ code, env.firstPush = some .enonfastforward → env.fetchResult = none →
        env.mergeResult = some code →
        Repository.commit env st =
          (.error (.mergeFailed code),
           [.pushA [pushRefspec st.branch],
            .fetchA [fetchRefspec st.upstream st.branch],
            .mergeA st.branch (mergeFromRef st.upstream st.branch)])) ∧
      (env.firstPush = some .enonfastforward → env.fetchResult = none →
        env.mergeResult = none →
        Repository.commit env st =
          ((match env.retryPush with
            | some e2 => .error (.pushRejected e2)
            | none => .ok (env.mergeEffect st)),
           [.pushA [pushRefspec st.branch],
            .fetchA [fetchRefspec st.upstream st.branch],
            .mergeA st.branch (mergeFromRef st.upstream st.branch),
            .pushA [pushRefspec (env.mergeEffect st).branch]])) ∧
      ((Repository.commit env st).2.countP
        (fun a => match a with | .pushA _ => true | _ => false) ≤ 2) := by
  intro env st
  refine ⟨?_, ?_, ?_, ?_, ?_, ?_⟩
  · intro h
    unfold Repository.commit
    rw [h]
  · intro code h
    unfold Repository.commit
    rw [h]
    simp
  · intro code h hf
    unfold Repository.commit
    rw [h, hf]
    simp
  · intro code h hf hm
    unfold Repository.commit
    rw [h, hf, hm]
    simp
  · intro h hf hm
    unfold Repository.commit
    rw [h, hf, hm]
    simp only [ne_eq, not_true_eq_false, if_false, reduceIte]
    cases env.retryPush <;> rfl
  · unfold Repository.commit
    cases hfp : env.firstPush with
    | none => simp [List.countP_cons]
    | some e =>
      cases e with
      | other code => simp [List.countP_cons]
      | enonfastforward =>
        simp only [ne_eq, not_true_eq_false, if_false, reduceIte]
        cases hfr : env.fetchResult with
        | some code => simp [List.countP_cons]
        | none =>
          cases hmr : env.mergeResult with
          | some code => simp [List.countP_cons]
          | none =>
            cases hrp : env.retryPush with
            | some e2 => simp [List.countP_cons]
            | none => simp [List.countP_cons]

/-- Claim C5, witness: a non-fast-forward first push with a clean fetch,
merge and retry performs push, fetch, merge, push (with the source's
refspecs) and succeeds. -/
theorem C5_witness :
    Repository.commit ⟨some .enonfastforward, none, none, id, none⟩ exRepo =
      (.ok (id exRepo),
       [.pushA [pushRefspec exRepo.branch],
        .fetchA [fetchRefspec exRepo.upstream exRepo.branch],
        .mergeA exRepo.branch (mergeFromRef exRepo.upstream exRepo.branch),
        .pushA [pushRefspec (id exRepo).branch]]) :=
  (C5_sync_retry ⟨some .enonfastforward, none, none, id, none⟩ exRepo).2.2.2.2.1
    rfl rfl rfl

/-- Claim C8: the disambiguation fallback returns null, without spawning
the external process, for every input that is not purely hexadecimal of
length at least 4; conversely the process is only ever spawned on inputs
that pass that check (the check strictly precedes the invocation). -/
theorem C8_disambiguation_guard :
    ∀ (store : Store) (s : Str),
      (hexAtLeast4 s = false → disambigateCommit store s = (none, false)) ∧
      ((disambigateCommit store s).2 = true → hexAtLeast4 s = true) := by
  intro store s
  constructor
  · intro h
    unfold disambigateCommit
    rw [h]
    simp
  · intro h
    by_contra hcon
    have hfalse : hexAtLeast4 s = false := by simpa using hcon
    unfold disambigateCommit at h
    rw [hfalse] at h
    simp at h

/-- Claim C8, witness: the three-character input `abc` and the
non-hexadecimal input `zzzz` are both rejected without any process
spawn. -/
theorem C8_witness :
    hexAtLeast4 (strOf "abc") = false ∧
    hexAtLeast4 (strOf "zzzz") = false ∧
    disambigateCommit exStore (strOf "abc") = (none, false) ∧
    disambigateCommit exStore (strOf "zzzz") = (none, false) :=
  ⟨by decide, by decide,
   (C8_disambiguation_guard exStore (strOf "abc")).1 (by decide),
   (C8_disambiguation_guard exStore (strOf "zzzz")).1 (by decide)⟩

theorem beq_append_colon (t u : Str) : (t ++ [':'] == u ++ [':']) = (t == u) := by
  by_cases h : t = u
  · subst h
    simp
  · have hne : ¬(t ++ [':'] = u ++ [':']) := fun hc => by
      have hlen : t.length = u.length := by
        have := congrArg List.length hc
        simpa using this
      exact h (List.append_inj_left hc hlen)
    rw [beq_eq_false_iff_ne.mpr hne, beq_eq_false_iff_ne.mpr h]

theorem contains_map_colon (t : Str) :
    ((VALID_PROTOCOLS.map (fun x => lowerStr x ++ [':'])).contains (t ++ [':'])) =
      VALID_PROTOCOLS.contains t := by
  have h1 : lowerStr (strOf "http") = strOf "http" := by decide
  have h2 : lowerStr (strOf "https") = strOf "https" := by decide
  have h3 : lowerStr (strOf "ftp") = strOf "ftp" := by decide
  simp only [VALID_PROTOCOLS, List.map_cons, List.map_nil, h1, h2, h3]
  simp only [List.contains_cons, List.contains_nil, beq_append_colon]

theorem isValidURL_some (s : Str) :
    isValidURL (some s) =
      (if whatwgOk s then
        match legacyProtocol s with
        | none => false
        | some p => (VALID_PROTOCOLS.map (fun x => lowerStr x ++ [':'])).contains p
      else false) := rfl

/-- Claim C7: `isValidURL` never raises (it is a total boolean
predicate); it returns `true` exactly when the input parses strictly as
a URL and its scheme, compared case-insensitively, is one of `http`,
`https`, `ftp`; unparsable input (including an absent value) yields
`false`. -/
theorem C7_url_validator :
    isValidURL none = false ∧
    ∀ s : Str, isValidURL (some s) = isValidURLSpec s := by
  refine ⟨rfl, ?_⟩
  intro s
  rw [isValidURL_some]
  unfold isValidURLSpec legacyProtocol
  cases hsch : urlScheme s with
  | none =>
    have hw : whatwgOk s = false := by
      unfold whatwgOk
      rw [hsch]
    rw [hw]
    simp
  | some p =>
    obtain ⟨sch, rest⟩ := p
    by_cases hok : whatwgOk s
    · rw [hok]
      simp only [if_true, Option.map_some, Bool.true_and]
      exact contains_map_colon (lowerStr sch)
    · have hfalse : whatwgOk s = false := by simpa using hok
      rw [hfalse]
      simp

theorem resolveOpt_of_matching_singleton (store : Store) (p : Str) (c : GCommit)
    (hhex : p.all isHexDigitChar = true) (hlen4 : 4 ≤ p.length)
    (hlen40 : p.length ≤ 40) (hm : commitsMatching store p = [c]) :
    resolveOpt store p = some c := by
  unfold resolveOpt getCommitFromShortCommitId commitLookupPfx
  have h1 : (!(p.all isHexDigitChar) || decide (40 < p.length)) = false := by
    rw [hhex]
    simp
    omega
  rw [h1, hm]
  simp only [Bool.false_eq_true, if_false]
  rw [if_neg (by omega)]

/-- Claim C4: for a commit of a well-formed store, the `shortId` search
accepts the first even prefix length from 4 upwards at which the Commit
Resolver maps the prefix back to that commit, base58-encodes the raw
bytes of that prefix, never needs more than the full 40-character id,
and no shorter whole-byte prefix resolves (in particular, none is
uniquely matched) to that commit. -/
theorem C4_shortid_minimality (store : Store) (c : GCommit)
    (hwf : storeWF store) (hc : c ∈ store) :
    ∃ n, getShortId store c MINIMUM_HASH =
        .ok (some (base58encode (hexToBytes (c.hash.take n)))) ∧
      4 ≤ n ∧ n ≤ 40 ∧ n % 2 = 0 ∧
      resolveOpt store (c.hash.take n) = some c ∧
      (∀ m, 4 ≤ m → m < n → m % 2 = 0 →
        resolveOpt store (c.hash.take m) ≠ some c) ∧
      (∀ m, 4 ≤ m → m < n → m % 2 = 0 →
        commitsMatching store (c.hash.take m) ≠ [c]) := by
  have hlen : c.hash.length = 40 := (hwf.2 c hc).1
  obtain ⟨n, hgo, h1, h2, h3, h4, hmin⟩ :=
    getShortIdGo_spec store hwf c hc (c.hash.length + 2) 4
      (by omega) (by omega) (by omega) (by omega)
  refine ⟨n, ?_, h1, h2, h3, h4, fun m hm4 hmn hme => hmin m hm4 hmn hme, ?_⟩
  · unfold getShortId MINIMUM_HASH
    rw [hgo]
  · intro m hm4 hmn hme hcon
    refine hmin m hm4 hmn hme ?_
    refine resolveOpt_of_matching_singleton store _ c
      (take_all_hex c.hash (hwf.2 c hc).2 m) ?_ ?_ hcon
    · rw [List.length_take, hlen]
      omega
    · rw [List.length_take, hlen]
      omega

/-- Claim C4, witness: the search for `exCommitB` (colliding with
`exCommitA` on the 4-character prefix) accepts the 6-character prefix. -/
theorem C4_witness :
    storeWF exStore ∧ exCommitB ∈ exStore ∧
    (∃ n, getShortId exStore exCommitB MINIMUM_HASH =
        .ok (some (base58encode (hexToBytes (exCommitB.hash.take n)))) ∧
      4 ≤ n ∧ n ≤ 40 ∧ n % 2 = 0 ∧
      resolveOpt exStore (exCommitB.hash.take n) = some exCommitB ∧
      (∀ m, 4 ≤ m → m < n → m % 2 = 0 →
        resolveOpt exStore (exCommitB.hash.take m) ≠ some exCommitB) ∧
      (∀ m, 4 ≤ m → m < n → m % 2 = 0 →
        commitsMatching exStore (exCommitB.hash.take m) ≠ [exCommitB])) :=
  ⟨by decide, by decide,
   C4_shortid_minimality exStore exCommitB (by decide) (by decide)⟩

/-- Any successfully formatted record is the six derived fields followed
by the parsed header data, spread last. -/
theorem formatRedirectCommit_shape (st : RepoModel) (c : GCommit)
    (r : List (Str × JVal)) (hfmt : formatRedirectCommit st c = .ok r) :
    ∃ idv shortv shortu,
      r = [(strOf "id", idv), (strOf "shortId", shortv), (strOf "shortUrl", shortu),
           (strOf "description", .s (matterParse (jsTrim c.message)).1),
           (strOf "created", .time ((c.authorTime + c.authorOffset * 60) * 1000)),
           (strOf "creator", .s c.authorName)] ++
          (matterParse (jsTrim c.message)).2.map (fun kv => (kv.1, JVal.s kv.2)) := by
  unfold formatRedirectCommit at hfmt
  dsimp only at hfmt
  cases hurl : isValidURL (dataGet (matterParse (jsTrim c.message)).2 (strOf "url")) with
  | false =>
    rw [hurl] at hfmt
    simp at hfmt
  | true =>
    rw [hurl] at hfmt
    simp only [Bool.not_true, Bool.false_eq_true, if_false] at hfmt
    cases h40 : getShortId st.store c 40 with
    | error e =>
      rw [h40] at hfmt
      exact absurd hfmt (by simp)
    | ok idOpt =>
      rw [h40] at hfmt
      cases h4 : getShortId st.store c MINIMUM_HASH with
      | error e =>
        rw [h4] at hfmt
        exact absurd hfmt (by simp)
      | ok shortOpt =>
        rw [h4] at hfmt
        simp only [] at hfmt
        cases hsu : getShortUrl st shortOpt with
        | error e =>
          rw [hsu] at hfmt
          exact absurd hfmt (by simp)
        | ok shortUrl =>
          rw [hsu] at hfmt
          simp only [Except.ok.injEq] at hfmt
          exact ⟨jvalOfOpt idOpt, jvalOfOpt shortOpt, shortUrl, hfmt.symm⟩

theorem filter_map_keys (data : List (Str × Str)) (k : Str) :
    (data.map (fun kv => (kv.1, JVal.s kv.2))).filter (fun kv => kv.1 == k) =
      (data.filter (fun kv => kv.1 == k)).map (fun kv => (kv.1, JVal.s kv.2)) := by
  induction data with
  | nil => rfl
  | cons d t ih =>
    obtain ⟨k1, v1⟩ := d
    by_cases h : k1 == k
    · simp only [List.map_cons, List.filter_cons, h, if_true, List.map_cons, ih]
    · simp only [List.map_cons, List.filter_cons, h, if_false, ih]
      simp only [Bool.false_eq_true, if_false]

/-- Claim C10: when the parsed header block carries exactly one binding
for one of the derived field names (`id`, `shortId`, `shortUrl`,
`description`, `created`, `creator`), the record the read path returns
carries the header value in place of the derived field (the data object
is spread last); in particular a header entry `id: x` whose value
differs from the base58 encoding of the commit hash makes the returned
record's `id` differ from that encoding. -/
theorem C10_header_override (st : RepoModel) (c : GCommit) (k v : Str)
    (r : List (Str × JVal))
    (hk : k ∈ [strOf "id", strOf "shortId", strOf "shortUrl",
      strOf "description", strOf "created", strOf "creator"])
    (hdata : (matterParse (jsTrim c.message)).2.filter (fun kv => kv.1 == k) = [(k, v)])
    (hfmt : formatRedirectCommit st c = .ok r) :
    objGet r k = some (.s v) ∧
    (k = strOf "id" → v ≠ base58encode (hexToBytes c.hash) →
      objGet r (strOf "id") ≠ some (.s (base58encode (hexToBytes c.hash)))) := by
  have hk0 := hk
  clear hk0
  obtain ⟨idv, shortv, shortu, hr⟩ := formatRedirectCommit_shape st c r hfmt
  have hmain : objGet r k = some (.s v) := by
    rw [hr]
    unfold objGet
    rw [List.filter_append, filter_map_keys, hdata]
    simp only [List.map_cons, List.map_nil]
    rw [List.getLast?_concat]
    rfl
  refine ⟨hmain, ?_⟩
  intro hid hne hcon
  rw [← hid, hmain] at hcon
  simp at hcon
  exact hne hcon

/-- Claim C10, witness: the commit whose header block contains `id: zz`
yields a record whose `id` is the string `zz`, not the base58 encoding
of its hash. -/
theorem C10_witness :
    formatRedirectCommit exRepo10 exHdrCommit = .ok exHdrRecord ∧
    objGet exHdrRecord (strOf "id") = some (.s (strOf "zz")) ∧
    objGet exHdrRecord (strOf "id") ≠
      some (.s (base58encode (hexToBytes exHdrCommit.hash))) := by
  have hfmt : formatRedirectCommit exRepo10 exHdrCommit = .ok exHdrRecord := by decide
  have h := C10_header_override exRepo10 exHdrCommit (strOf "id") (strOf "zz")
    exHdrRecord (by decide) (by decide) hfmt
  exact ⟨hfmt, h.1, h.2 rfl (by decide)⟩

theorem decodeResolve_encode (store : Store) (p : Str)
    (hhex : ∀ ch ∈ p, ch ∈ LHEX) (heven : p.length % 2 = 0) :
    decodeResolve store (base58encode (hexToBytes p)) = resolveOpt store p := by
  unfold decodeResolve
  rw [base58_roundtrip (hexToBytes p) (hexToBytes_lt p hhex)]
  simp only []
  rw [bytesToHex_hexToBytes p hhex heven]

/-- Claim C1, amended: for two store commits sharing a 4-hex-character
prefix but diverging at the 5th, each record's `shortId`, decoded and
resolved through the Commit Resolver, yields that record's own commit;
a record's encoded prefix is at least 6 hex characters whenever the
resolver does not already map the shared 4-character prefix to that very
commit, and at most one of the two can keep the 4-character prefix. -/
theorem C1_amended (store : Store) (c1 c2 : GCommit)
    (hwf : storeWF store) (h1 : c1 ∈ store) (h2 : c2 ∈ store) (hne : c1 ≠ c2)
    (hshare : c1.hash.take 4 = c2.hash.take 4)
    (hdiff : c1.hash.get? 4 ≠ c2.hash.get? 4) :
    ∃ n1 n2,
      getShortId store c1 MINIMUM_HASH =
        .ok (some (base58encode (hexToBytes (c1.hash.take n1)))) ∧
      getShortId store c2 MINIMUM_HASH =
        .ok (some (base58encode (hexToBytes (c2.hash.take n2)))) ∧
      decodeResolve store (base58encode (hexToBytes (c1.hash.take n1))) = some c1 ∧
      decodeResolve store (base58encode (hexToBytes (c2.hash.take n2))) = some c2 ∧
      (resolveOpt store (c1.hash.take 4) ≠ some c1 → 6 ≤ n1) ∧
      (resolveOpt store (c2.hash.take 4) ≠ some c2 → 6 ≤ n2) ∧
      ¬(n1 = 4 ∧ n2 = 4) := by
  have hd := hdiff
  clear hd
  have hlen1 : c1.hash.length = 40 := (hwf.2 c1 h1).1
  have hlen2 : c2.hash.length = 40 := (hwf.2 c2 h2).1
  obtain ⟨n1, hgo1, ha1, hb1, hc1, hr1, hm1⟩ :=
    getShortIdGo_spec store hwf c1 h1 (c1.hash.length + 2) 4
      (by omega) (by omega) (by omega) (by omega)
  obtain ⟨n2, hgo2, ha2, hb2, hc2, hr2, hm2⟩ :=
    getShortIdGo_spec store hwf c2 h2 (c2.hash.length + 2) 4
      (by omega) (by omega) (by omega) (by omega)
  have htakehex1 : ∀ ch ∈ c1.hash.take n1, ch ∈ LHEX :=
    fun ch hch => (hwf.2 c1 h1).2 ch (List.take_subset n1 _ hch)
  have htakehex2 : ∀ ch ∈ c2.hash.take n2, ch ∈ LHEX :=
    fun ch hch => (hwf.2 c2 h2).2 ch (List.take_subset n2 _ hch)
  have htlen1 : (c1.hash.take n1).length % 2 = 0 := by
    rw [List.length_take, hlen1]
    omega
  have htlen2 : (c2.hash.take n2).length % 2 = 0 := by
    rw [List.length_take, hlen2]
    omega
  refine ⟨n1, n2, ?_, ?_, ?_, ?_, ?_, ?_, ?_⟩
  · unfold getShortId MINIMUM_HASH
    rw [hgo1]
  · unfold getShortId MINIMUM_HASH
    rw [hgo2]
  · rw [decodeResolve_encode store _ htakehex1 htlen1]
    exact hr1
  · rw [decodeResolve_encode store _ htakehex2 htlen2]
    exact hr2
  · intro hno
    by_contra hlt
    have hn14 : n1 = 4 := by omega
    rw [hn14] at hr1
    exact hno hr1
  · intro hno
    by_contra hlt
    have hn24 : n2 = 4 := by omega
    rw [hn24] at hr2
    exact hno hr2
  · rintro ⟨he1, he2⟩
    rw [he1] at hr1
    rw [he2] at hr2
    rw [hshare] at hr1
    rw [hr1] at hr2
    exact hne (by simpa using hr2)

/-- Claim C1, witness: the collision pair of `exStore`.  The
disambiguation fallback resolves `aaaa` to `exCommitA`, which therefore
keeps the 4-character prefix, while `exCommitB` needs 6; both decode and
resolve back to their own commits. -/
theorem C1_amended_witness :
    storeWF exStore ∧ exCommitA ∈ exStore ∧ exCommitB ∈ exStore ∧
    (∃ n1 n2,
      getShortId exStore exCommitA MINIMUM_HASH =
        .ok (some (base58encode (hexToBytes (exCommitA.hash.take n1)))) ∧
      getShortId exStore exCommitB MINIMUM_HASH =
        .ok (some (base58encode (hexToBytes (exCommitB.hash.take n2)))) ∧
      decodeResolve exStore (base58encode (hexToBytes (exCommitA.hash.take n1))) =
        some exCommitA ∧
      decodeResolve exStore (base58encode (hexToBytes (exCommitB.hash.take n2))) =
        some exCommitB ∧
      (resolveOpt exStore (exCommitA.hash.take 4) ≠ some exCommitA → 6 ≤ n1) ∧
      (resolveOpt exStore (exCommitB.hash.take 4) ≠ some exCommitB → 6 ≤ n2) ∧
      ¬(n1 = 4 ∧ n2 = 4)) :=
  ⟨by decide, by decide, by decide,
   C1_amended exStore exCommitA exCommitB (by decide) (by decide) (by decide)
     (by decide) (by decide) (by decide)⟩

theorem formatRedirectCommit_notARedirect (st : RepoModel) (c : GCommit)
    (hurl : isValidURL
      (dataGet (matterParse (jsTrim c.message)).2 (strOf "url")) = false) :
    formatRedirectCommit st c = .error .notARedirect := by
  unfold formatRedirectCommit
  dsimp only
  rw [hurl]
  rfl

theorem base58encode_ne_nil (bs : List Nat) (hbs : bs ≠ [])
    (hlt : ∀ b ∈ bs, b < 256) : base58encode bs ≠ [] := by
  intro hcon
  have hrt := base58_roundtrip bs hlt
  rw [hcon] at hrt
  have hdec : base58decode ([] : Str) = some ([] : List Nat) := rfl
  rw [hdec] at hrt
  simp at hrt
  exact hbs hrt

theorem filterMap_skip {α β : Type} [BEq α] [LawfulBEq α]
    (f : α → Option β) (a : α) (hf : f a = none) :
    ∀ l : List α, l.filterMap f = (l.filter (fun x => !(x == a))).filterMap f := by
  intro l
  induction l with
  | nil => rfl
  | cons x t ih =>
    by_cases hx : x = a
    · subst hx
      rw [List.filterMap_cons, hf, List.filter_cons_of_neg (by simp)]
      exact ih
    · rw [List.filterMap_cons, List.filter_cons_of_pos (by simp [hx]),
        List.filterMap_cons, ih]

theorem recordAt_none (st : RepoModel) (hwf : storeWF st.store)
    (c : GCommit) (hc : c ∈ st.store)
    (hfmt : formatRedirectCommit st c = .error .notARedirect) :
    recordAt st c.hash = none := by
  unfold recordAt
  cases hfind : st.store.find? (fun d => d.hash == c.hash) with
  | none =>
    have := List.find?_eq_none.mp hfind c hc
    simp at this
  | some d =>
    have hdmem : d ∈ st.store := List.mem_of_find?_eq_some hfind
    have hdhash : d.hash = c.hash := by
      have := List.find?_some hfind
      simpa using this
    have hdc : d = c := List.inj_on_of_nodup_map hwf.1 hdmem hc hdhash
    rw [hdc]
    simp only []
    rw [hfmt]

/-- Claim C3, amended: a commit whose message lacks a valid `url` is
never yielded by traversal (the walk's record list equals the one with
that commit's hash removed, and the traversal still succeeds), but a
direct `get` of its id surfaces the decode failure `'Commit is not a
Redirect'` (`notARedirect`), not `'Commit Not Found'`. -/
theorem C3_amended (st : RepoModel) (c : GCommit)
    (hwf : storeWF st.store) (hc : c ∈ st.store)
    (hurl : isValidURL
      (dataGet (matterParse (jsTrim c.message)).2 (strOf "url")) = false) :
    formatRedirectCommit st c = .error .notARedirect ∧
    (∀ tip l, st.branchTip = some tip → Repository.all st = .ok l →
      l = ((revwalkTimeReverse st.store tip).filter
        (fun h => !(h == c.hash))).filterMap (recordAt st)) ∧
    Repository.get st (base58encode (hexToBytes c.hash)) =
      .error .notARedirect := by
  have hfmt := formatRedirectCommit_notARedirect st c hurl
  have hlen : c.hash.length = 40 := (hwf.2 c hc).1
  have hhex : ∀ ch ∈ c.hash, ch ∈ LHEX := (hwf.2 c hc).2
  refine ⟨hfmt, ?_, ?_⟩
  · intro tip l htip hall
    unfold Repository.all at hall
    rw [htip] at hall
    simp only [Except.ok.injEq] at hall
    rw [← hall]
    exact filterMap_skip (recordAt st) c.hash
      (recordAt_none st hwf c hc hfmt) _
  · unfold Repository.get
    have hne : base58encode (hexToBytes c.hash) ≠ [] := by
      have hbytes : hexToBytes c.hash ≠ [] := by
        cases hh : c.hash with
        | nil => rw [hh] at hlen; simp at hlen
        | cons a t =>
          cases t with
          | nil => rw [hh] at hlen; simp at hlen
          | cons b t2 =>
            rw [hexToBytes]
            simp
      exact base58encode_ne_nil _ hbytes (hexToBytes_lt _ hhex)
    rw [if_neg hne]
    rw [base58_roundtrip (hexToBytes c.hash) (hexToBytes_lt _ hhex)]
    simp only []
    rw [bytesToHex_hexToBytes c.hash hhex (by omega)]
    rw [resolveFull st.store hwf c hc]
    exact hfmt

/-- Claim C3, amended claim witness: the front-matter-less commit
`exPlainCommit` of `exRepo3`. -/
theorem C3_amended_witness :
    storeWF exRepo3.store ∧ exPlainCommit ∈ exRepo3.store ∧
    (formatRedirectCommit exRepo3 exPlainCommit = .error .notARedirect ∧
     (∀ tip l, exRepo3.branchTip = some tip → Repository.all exRepo3 = .ok l →
       l = ((revwalkTimeReverse exRepo3.store tip).filter
         (fun h => !(h == exPlainCommit.hash))).filterMap (recordAt exRepo3)) ∧
     Repository.get exRepo3 (base58encode (hexToBytes exPlainCommit.hash)) =
       .error .notARedirect) :=
  ⟨by decide, by decide,
   C3_amended exRepo3 exPlainCommit (by decide) (by decide) (by decide)⟩

theorem pickMax_none_iff (store : Store) :
    ∀ t : List Str, pickMax store t = none ↔ t = [] := by
  intro t
  cases t with
  | nil => simp [pickMax]
  | cons a t2 =>
    rw [pickMax]
    cases pickMax store t2 with
    | none => simp
    | some p =>
      obtain ⟨m, others⟩ := p
      simp only []
      by_cases h : commitTimeOf store m ≤ commitTimeOf store a
      · rw [if_pos h]
        simp
      · rw [if_neg h]
        simp

theorem pickMax_spec (store : Store) :
    ∀ (l : List Str) (h : Str) (rest : List Str),
      pickMax store l = some (h, rest) →
      h ∈ l ∧ (∀ x ∈ l, commitTimeOf store x ≤ commitTimeOf store h) ∧
      (∀ x ∈ rest, x ∈ l) := by
  intro l
  induction l with
  | nil =>
    intro h rest hcon
    simp [pickMax] at hcon
  | cons a t ih =>
    intro h rest hpk
    rw [pickMax] at hpk
    cases hpt : pickMax store t with
    | none =>
      rw [hpt] at hpk
      simp only [Option.some.injEq, Prod.mk.injEq] at hpk
      have ht : t = [] := (pickMax_none_iff store t).mp hpt
      subst ht
      obtain ⟨rfl, rfl⟩ := hpk
      refine ⟨by simp, ?_, by simp⟩
      intro x hx
      simp at hx
      subst hx
      exact le_refl _
    | some p =>
      obtain ⟨m, others⟩ := p
      rw [hpt] at hpk
      simp only [] at hpk
      obtain ⟨hmem, hbound, hsub⟩ := ih m others hpt
      by_cases hcmp : commitTimeOf store m ≤ commitTimeOf store a
      · rw [if_pos hcmp] at hpk
        simp only [Option.some.injEq, Prod.mk.injEq] at hpk
        obtain ⟨rfl, rfl⟩ := hpk
        refine ⟨by simp, ?_, ?_⟩
        · intro x hx
          rcases List.mem_cons.mp hx with hx | hx
          · subst hx
            exact le_refl _
          · exact le_trans (hbound x hx) hcmp
        · intro x hx
          exact List.mem_cons_of_mem a hx
      · rw [if_neg hcmp] at hpk
        simp only [Option.some.injEq, Prod.mk.injEq] at hpk
        obtain ⟨rfl, rfl⟩ := hpk
        refine ⟨List.mem_cons_of_mem a hmem, ?_, ?_⟩
        · intro x hx
          rcases List.mem_cons.mp hx with hx | hx
          · subst hx
            omega
          · exact hbound x hx
        · intro x hx
          rcases List.mem_cons.mp hx with hx | hx
          · subst hx
            simp
          · exact List.mem_cons_of_mem a (hsub x hx)

theorem parentsOf_time_le (store : Store)
    (hmono : ∀ c ∈ store, ∀ p ∈ c.parents, commitTimeOf store p ≤ c.commitTime)
    (h : Str) (p : Str) (hp : p ∈ parentsOf store h) :
    commitTimeOf store p ≤ commitTimeOf store h := by
  unfold parentsOf at hp
  unfold commitTimeOf
  cases hfind : store.find? (fun c => c.hash == h) with
  | none =>
    rw [hfind] at hp
    simp at hp
  | some c =>
    rw [hfind] at hp
    have hcmem : c ∈ store := List.mem_of_find?_eq_some hfind
    have := hmono c hcmem p hp
    unfold commitTimeOf at this
    exact this

theorem walkFrontier_bounded_pairwise (store : Store)
    (hmono : ∀ c ∈ store, ∀ p ∈ c.parents, commitTimeOf store p ≤ c.commitTime) :
    ∀ fuel frontier seen B, (∀ h ∈ frontier, commitTimeOf store h ≤ B) →
      (∀ x ∈ walkFrontier store fuel frontier seen, commitTimeOf store x ≤ B) ∧
      List.Pairwise (fun a b => commitTimeOf store b ≤ commitTimeOf store a)
        (walkFrontier store fuel frontier seen) := by
  intro fuel
  induction fuel with
  | zero =>
    intro frontier seen B hB
    simp [walkFrontier]
  | succ fuel ih =>
    intro frontier seen B hB
    rw [walkFrontier]
    cases hpk : pickMax store frontier with
    | none => simp
    | some p =>
      obtain ⟨h, rest⟩ := p
      obtain ⟨hmem, hbound, hsub⟩ := pickMax_spec store frontier h rest hpk
      simp only []
      have hrec := ih (rest ++ (parentsOf store h).filter (fun q => !(seen.contains q)))
        (seen ++ (parentsOf store h).filter (fun q => !(seen.contains q)))
        (commitTimeOf store h) ?_
      · refine ⟨?_, ?_⟩
        · intro x hx
          rcases List.mem_cons.mp hx with hx | hx
          · rw [hx]
            exact hB h hmem
          · exact le_trans (hrec.1 x hx) (hB h hmem)
        · rw [List.pairwise_cons]
          exact ⟨fun x hx => hrec.1 x hx, hrec.2⟩
      · intro q hq
        rcases List.mem_append.mp hq with hq | hq
        · exact hbound q (hsub q hq)
        · exact parentsOf_time_le store hmono h q (List.mem_of_mem_filter hq)

theorem pairwise_filterMap_of {α β : Type} (f : α → Option β)
    (R : α → α → Prop) (S : β → β → Prop)
    (hRS : ∀ a b x y, R a b → f a = some x → f b = some y → S x y) :
    ∀ l : List α, List.Pairwise R l → List.Pairwise S (l.filterMap f) := by
  intro l
  induction l with
  | nil =>
    intro _
    simp
  | cons a t ih =>
    intro hp
    rw [List.pairwise_cons] at hp
    rw [List.filterMap_cons]
    cases hfa : f a with
    | none => exact ih hp.2
    | some x =>
      rw [List.pairwise_cons]
      refine ⟨?_, ih hp.2⟩
      intro y hy
      obtain ⟨b, hbmem, hfb⟩ := List.mem_filterMap.mp hy
      exact hRS a b x y (hp.1 b hbmem) hfa hfb

/-- Claim C9, amended: a TIME-sorted, reversed walk yields parents only
after discovering them through children, so the unranged traversal
yields records in non-decreasing creation-time order provided committer
times are non-decreasing along parent edges (as append-only writes
produce) and each commit's author clock (author time plus timezone
offset) agrees with its committer time; the ordering is obtained by
requesting `SORT.TIME` with `SORT.REVERSE` from the walker. -/
theorem C9_amended (st : RepoModel)
    (hmono : ∀ c ∈ st.store, ∀ p ∈ c.parents,
      commitTimeOf st.store p ≤ c.commitTime)
    (hauthor : ∀ c ∈ st.store, c.authorTime + c.authorOffset * 60 = c.commitTime) :
    List.Pairwise (fun a b => a ≤ b) (allCreatedTimes st) := by
  unfold allCreatedTimes
  cases htip : st.branchTip with
  | none => simp
  | some tip =>
    simp only []
    have hwalk := walkFrontier_bounded_pairwise st.store hmono
      (st.store.length + 1) [tip] [tip] (commitTimeOf st.store tip)
      (by intro h hmem; simp at hmem; rw [hmem])
    have hrev : List.Pairwise
        (fun a b => commitTimeOf st.store a ≤ commitTimeOf st.store b)
        (revwalkTimeReverse st.store tip) := by
      unfold revwalkTimeReverse
      rw [List.pairwise_reverse]
      exact hwalk.2
    refine pairwise_filterMap_of _ _ _ ?_ _ hrev
    intro a b x y hab hfa hfb
    have hva : x = commitTimeOf st.store a * 1000 := by
      cases hfind : st.store.find? (fun c => c.hash == a) with
      | none =>
        rw [hfind] at hfa
        simp at hfa
      | some c =>
        rw [hfind] at hfa
        simp only [] at hfa
        have hcmem : c ∈ st.store := List.mem_of_find?_eq_some hfind
        cases hfmt : formatRedirectCommit st c with
        | error e =>
          rw [hfmt] at hfa
          simp at hfa
        | ok r =>
          rw [hfmt] at hfa
          simp only [Option.some.injEq] at hfa
          rw [← hfa]
          unfold commitTimeOf
          rw [hfind]
          simp only []
          rw [← hauthor c hcmem]
    have hvb : y = commitTimeOf st.store b * 1000 := by
      cases hfind : st.store.find? (fun c => c.hash == b) with
      | none =>
        rw [hfind] at hfb
        simp at hfb
      | some c =>
        rw [hfind] at hfb
        simp only [] at hfb
        have hcmem : c ∈ st.store := List.mem_of_find?_eq_some hfind
        cases hfmt : formatRedirectCommit st c with
        | error e =>
          rw [hfmt] at hfb
          simp at hfb
        | ok r =>
          rw [hfmt] at hfb
          simp only [Option.some.injEq] at hfb
          rw [← hfb]
          unfold commitTimeOf
          rw [hfind]
          simp only []
          rw [← hauthor c hcmem]
    rw [hva, hvb]
    omega

/-- Claim C9, amended claim witness: a two-commit chain with agreeing,
monotone clocks traverses oldest to newest. -/
theorem C9_amended_witness :
    (∀ c ∈ exRepo3.store, ∀ p ∈ c.parents,
      commitTimeOf exRepo3.store p ≤ c.commitTime) ∧
    (∀ c ∈ exRepo3.store, c.authorTime + c.authorOffset * 60 = c.commitTime) ∧
    List.Pairwise (fun a b => a ≤ b) (allCreatedTimes exRepo3) :=
  ⟨by decide, by decide, C9_amended exRepo3 (by decide) (by decide)⟩

theorem startsWithClose_iff : ∀ s : Str,
    startsWithClose s = true ↔ ∃ t, s = '\n' :: '-' :: '-' :: '-' :: t := by
  intro s
  match s with
  | [] => simp [startsWithClose]
  | [c0] => simp [startsWithClose]
  | [c0, c1] => simp [startsWithClose]
  | [c0, c1, c2] => simp [startsWithClose]
  | c0 :: c1 :: c2 :: c3 :: t =>
    simp only [startsWithClose, Bool.and_eq_true, beq_iff_eq]
    constructor
    · rintro ⟨⟨⟨h0, h1⟩, h2⟩, h3⟩
      subst h0
      subst h1
      subst h2
      subst h3
      exact ⟨t, rfl⟩
    · rintro ⟨t2, heq⟩
      injection heq with h0 heq
      injection heq with h1 heq
      injection heq with h2 heq
      injection heq with h3 heq
      exact ⟨⟨⟨h0, h1⟩, h2⟩, h3⟩

theorem splitAtClose_append (b : Str) :
    ∀ a : Str, nlOk a = true →
      splitAtClose (a ++ '\n' :: '-' :: '-' :: '-' :: b) = some (a, b) := by
  intro a
  induction a with
  | nil =>
    intro _
    have hs : startsWithClose ('\n' :: '-' :: '-' :: '-' :: b) = true :=
      (startsWithClose_iff _).mpr ⟨b, rfl⟩
    rw [List.nil_append, splitAtClose, if_pos hs]
    rfl
  | cons c t ih =>
    intro ha
    rw [nlOk, Bool.and_eq_true] at ha
    obtain ⟨hcond, hrest⟩ := ha
    rw [List.cons_append, splitAtClose]
    have hs : startsWithClose (c :: (t ++ '\n' :: '-' :: '-' :: '-' :: b)) = false := by
      rw [← Bool.not_eq_true]
      intro hcon
      obtain ⟨u, hu⟩ := (startsWithClose_iff _).mp hcon
      injection hu with hc hu2
      subst hc
      simp only [beq_self_eq_true, Bool.not_true, Bool.false_or] at hcond
      cases t with
      | nil =>
        rw [List.nil_append] at hu2
        injection hu2 with hbad
        exact absurd hbad (by decide)
      | cons c2 t2 =>
        rw [startsWithDash] at hcond
        rw [List.cons_append] at hu2
        injection hu2 with hc2
        rw [hc2] at hcond
        simp at hcond
    rw [if_neg (by rw [hs]; simp)]
    rw [ih hrest]
    rfl

theorem splitLines_no_nl : ∀ x : Str, (∀ c ∈ x, ¬(c = '\n')) →
    splitLines x = [x] := by
  intro x
  induction x with
  | nil => intro _; rfl
  | cons c t ih =>
    intro h
    rw [splitLines, if_neg (by simp [h c (by simp)])]
    rw [ih (fun d hd => h d (by simp [hd]))]

theorem splitLines_append (y : Str) : ∀ x : Str, (∀ c ∈ x, ¬(c = '\n')) →
    splitLines (x ++ '\n' :: y) = x :: splitLines y := by
  intro x
  induction x with
  | nil =>
    intro _
    rw [List.nil_append, splitLines, if_pos (by simp)]
  | cons c t ih =>
    intro h
    rw [List.cons_append, splitLines, if_neg (by simp [h c (by simp)]),
      ih (fun d hd => h d (by simp [hd]))]

theorem yamlStringify_eq_joinEntries :
    ∀ l : List (Str × Str), l ≠ [] → yamlStringify l = joinEntries l ++ ['\n'] := by
  intro l
  induction l with
  | nil => intro h; exact absurd rfl h
  | cons kv rest ih =>
    intro _
    cases rest with
    | nil =>
      rw [joinEntries]
      unfold yamlStringify
      simp
    | cons kv2 rest2 =>
      have hne2 : kv2 :: rest2 ≠ [] := by simp
      rw [joinEntries]
      unfold yamlStringify at ih ⊢
      rw [List.map_cons, List.flatten_cons, ih hne2]
      simp

theorem plainKey_head (s : Str) (h : plainKey s = true) :
    ∃ c t, s = c :: t ∧ c.isAlpha = true := by
  cases s with
  | nil => simp [plainKey] at h
  | cons c t =>
    rw [plainKey, Bool.and_eq_true, Bool.and_eq_true] at h
    exact ⟨c, t, rfl, h.1.1⟩

theorem plainKey_alnum (s : Str) (h : plainKey s = true) :
    ∀ c ∈ s, c.isAlphanum = true := by
  cases s with
  | nil => simp [plainKey] at h
  | cons c t =>
    rw [plainKey, Bool.and_eq_true, Bool.and_eq_true] at h
    have := h.1.2
    rw [List.all_eq_true] at this
    exact this

theorem plainScalar_head (s : Str) (h : plainScalar s = true) :
    ∃ c t, s = c :: t ∧ c.isAlpha = true := by
  cases s with
  | nil => simp [plainScalar] at h
  | cons c t =>
    rw [plainScalar, Bool.and_eq_true, Bool.and_eq_true] at h
    exact ⟨c, t, rfl, h.1.1⟩

theorem plainScalar_chars (s : Str) (h : plainScalar s = true) :
    ∀ c ∈ s, plainValueChar c = true := by
  cases s with
  | nil => simp [plainScalar] at h
  | cons c t =>
    rw [plainScalar, Bool.and_eq_true, Bool.and_eq_true] at h
    have := h.1.2
    rw [List.all_eq_true] at this
    exact this

theorem alnum_ne_nl (c : Char) (h : c.isAlphanum = true) : ¬(c = '\n') := by
  intro hc
  subst hc
  exact absurd h (by decide)

theorem alnum_ne_colon (c : Char) (h : c.isAlphanum = true) : ¬(c = ':') := by
  intro hc
  subst hc
  exact absurd h (by decide)

theorem alpha_ne_dash (c : Char) (h : c.isAlpha = true) : ¬(c = '-') := by
  intro hc
  subst hc
  exact absurd h (by decide)

theorem alpha_ne_space (c : Char) (h : c.isAlpha = true) : ¬(c = ' ') := by
  intro hc
  subst hc
  exact absurd h (by decide)

theorem plainValueChar_ne_nl (c : Char) (h : plainValueChar c = true) : ¬(c = '\n') := by
  intro hc
  subst hc
  exact absurd h (by decide)

theorem plainValueChar_ne_space (c : Char) (h : plainValueChar c = true) : ¬(c = ' ') := by
  intro hc
  subst hc
  exact absurd h (by decide)

theorem entryStr_no_nl (kv : Str × Str) (hk : plainKey kv.1 = true)
    (hv : plainScalar kv.2 = true) : ∀ c ∈ entryStr kv, ¬(c = '\n') := by
  intro c hc
  unfold entryStr at hc
  rcases List.mem_append.mp hc with hc | hc
  · exact alnum_ne_nl c (plainKey_alnum kv.1 hk c hc)
  · rcases List.mem_cons.mp hc with hc | hc
    · subst hc
      decide
    · rcases List.mem_cons.mp hc with hc | hc
      · subst hc
        decide
      · exact plainValueChar_ne_nl c (plainScalar_chars kv.2 hv c hc)

theorem nlOk_append_no_nl (y : Str) (hy : nlOk y = true) :
    ∀ x : Str, (∀ c ∈ x, ¬(c = '\n')) → nlOk (x ++ y) = true := by
  intro x
  induction x with
  | nil => intro _; exact hy
  | cons c t ih =>
    intro h
    rw [List.cons_append, nlOk, Bool.and_eq_true]
    constructor
    · have hc : ¬(c = '\n') := h c (by simp)
      simp [hc]
    · exact ih (fun d hd => h d (by simp [hd]))

theorem nlOk_no_nl (x : Str) (h : ∀ c ∈ x, ¬(c = '\n')) : nlOk x = true := by
  have := nlOk_append_no_nl [] rfl x h
  simpa using this

theorem startsWithDash_joinEntries (kv2 : Str × Str) (rest : List (Str × Str))
    (hk : plainKey kv2.1 = true) :
    startsWithDash (joinEntries (kv2 :: rest)) = false := by
  obtain ⟨kc, kt, hkeq, halpha⟩ := plainKey_head kv2.1 hk
  have hentry : entryStr kv2 = kc :: (kt ++ ':' :: ' ' :: kv2.2) := by
    unfold entryStr
    rw [hkeq]
    rfl
  cases rest with
  | nil =>
    rw [joinEntries, hentry, startsWithDash]
    simp [alpha_ne_dash kc halpha]
  | cons kv3 rest2 =>
    rw [joinEntries, hentry, List.cons_append, startsWithDash]
    simp [alpha_ne_dash kc halpha]

theorem nlOk_joinEntries : ∀ l : List (Str × Str),
    (∀ kv ∈ l, plainKey kv.1 = true) → (∀ kv ∈ l, plainScalar kv.2 = true) →
    nlOk (joinEntries l) = true := by
  intro l
  induction l with
  | nil => intro _ _; rfl
  | cons kv rest ih =>
    intro hk hv
    cases rest with
    | nil =>
      rw [joinEntries]
      exact nlOk_no_nl _ (entryStr_no_nl kv (hk kv (by simp)) (hv kv (by simp)))
    | cons kv2 rest2 =>
      rw [joinEntries]
      apply nlOk_append_no_nl
      · rw [nlOk, Bool.and_eq_true]
        constructor
        · rw [startsWithDash_joinEntries kv2 rest2 (hk kv2 (by simp))]
          simp
        · exact ih (fun x hx => hk x (by simp [hx])) (fun x hx => hv x (by simp [hx]))
      · exact entryStr_no_nl kv (hk kv (by simp)) (hv kv (by simp))

theorem splitAtColon_key (v : Str) : ∀ k : Str, (∀ c ∈ k, ¬(c = ':')) →
    splitAtColon (k ++ ':' :: v) = some (k, v) := by
  intro k
  induction k with
  | nil =>
    intro _
    rw [List.nil_append, splitAtColon, if_pos (by simp)]
  | cons c t ih =>
    intro h
    rw [List.cons_append, splitAtColon, if_neg (by simp [h c (by simp)]),
      ih (fun d hd => h d (by simp [hd]))]
    rfl

theorem dropWhile_eq_self_of_not_head {p : Char → Bool} :
    ∀ l : Str, (∀ c, l.head? = some c → p c = false) → l.dropWhile p = l := by
  intro l h
  cases l with
  | nil => rfl
  | cons c t =>
    rw [List.dropWhile_cons_of_neg]
    rw [h c rfl]
    simp

theorem parseYamlLine_entry (kv : Str × Str) (hk : plainKey kv.1 = true)
    (hv : plainScalar kv.2 = true) : parseYamlLine (entryStr kv) = some kv := by
  obtain ⟨vc, vt, hveq, hvalpha⟩ := plainScalar_head kv.2 hv
  have hkcol : ∀ c ∈ kv.1, ¬(c = ':') :=
    fun c hc => alnum_ne_colon c (plainKey_alnum kv.1 hk c hc)
  unfold parseYamlLine entryStr
  rw [splitAtColon_key (' ' :: kv.2) kv.1 hkcol]
  simp only []
  obtain ⟨kc, kt, hkeq, _⟩ := plainKey_head kv.1 hk
  rw [if_neg (by rw [hkeq]; simp)]
  have hdrop1 : (' ' :: kv.2).dropWhile (fun c => c == ' ') = kv.2 := by
    rw [List.dropWhile_cons_of_pos (by simp)]
    apply dropWhile_eq_self_of_not_head
    intro c hc
    rw [hveq] at hc
    simp only [List.head?_cons, Option.some.injEq] at hc
    subst hc
    simp [alpha_ne_space vc hvalpha]
  rw [hdrop1]
  have hdrop2 : kv.2.reverse.dropWhile (fun c => c == ' ') = kv.2.reverse := by
    apply dropWhile_eq_self_of_not_head
    intro c hc
    have hcmem : c ∈ kv.2.reverse := List.mem_of_mem_head? hc
    have := plainScalar_chars kv.2 hv c (List.mem_reverse.mp hcmem)
    simp [plainValueChar_ne_space c this]
  rw [hdrop2, List.reverse_reverse]

theorem splitLines_joinEntries : ∀ l : List (Str × Str),
    (∀ kv ∈ l, plainKey kv.1 = true) → (∀ kv ∈ l, plainScalar kv.2 = true) →
    l ≠ [] → splitLines (joinEntries l) = l.map entryStr := by
  intro l
  induction l with
  | nil => intro _ _ h; exact absurd rfl h
  | cons kv rest ih =>
    intro hk hv _
    cases rest with
    | nil =>
      rw [joinEntries, List.map_cons, List.map_nil]
      exact splitLines_no_nl _ (entryStr_no_nl kv (hk kv (by simp)) (hv kv (by simp)))
    | cons kv2 rest2 =>
      rw [joinEntries, List.map_cons]
      rw [splitLines_append _ _ (entryStr_no_nl kv (hk kv (by simp)) (hv kv (by simp)))]
      rw [ih (fun x hx => hk x (by simp [hx])) (fun x hx => hv x (by simp [hx])) (by simp)]

theorem filterMap_eq_self {α : Type} (f : α → Option α) :
    ∀ l : List α, (∀ x ∈ l, f x = some x) → l.filterMap f = l := by
  intro l
  induction l with
  | nil => intro _; rfl
  | cons x t ih =>
    intro h
    rw [List.filterMap_cons, h x (by simp), ih (fun y hy => h y (by simp [hy]))]

theorem parseBlock_joinEntries (l : List (Str × Str))
    (hk : ∀ kv ∈ l, plainKey kv.1 = true) (hv : ∀ kv ∈ l, plainScalar kv.2 = true)
    (hne : l ≠ []) : parseBlock (joinEntries l) = l := by
  unfold parseBlock
  rw [splitLines_joinEntries l hk hv hne, List.filterMap_map]
  apply filterMap_eq_self
  intro kv hkv
  exact parseYamlLine_entry kv (hk kv hkv) (hv kv hkv)

theorem parseBlock_cons_nl (X : Str) : parseBlock ('\n' :: X) = parseBlock X := by
  unfold parseBlock
  rw [splitLines, if_pos (by simp), List.filterMap_cons]
  rfl

theorem dropWhileAppendKeep (p : Char → Bool) :
    ∀ l1 l2 : Str, l1.dropWhile p ≠ [] →
      (l1 ++ l2).dropWhile p = l1.dropWhile p ++ l2 := by
  intro l1
  induction l1 with
  | nil =>
    intro l2 h
    exact absurd rfl h
  | cons c t ih =>
    intro l2 h
    by_cases hc : p c
    · rw [List.dropWhile_cons_of_pos hc] at h
      rw [List.cons_append, List.dropWhile_cons_of_pos hc,
        List.dropWhile_cons_of_pos hc]
      exact ih l2 h
    · rw [List.cons_append, List.dropWhile_cons_of_neg hc,
        List.dropWhile_cons_of_neg hc]
      rfl

theorem dropWhileAppendAll (p : Char → Bool) :
    ∀ l1 l2 : Str, (∀ c ∈ l1, p c = true) →
      (l1 ++ l2).dropWhile p = l2.dropWhile p := by
  intro l1
  induction l1 with
  | nil => intro l2 _; rfl
  | cons c t ih =>
    intro l2 h
    rw [List.cons_append, List.dropWhile_cons_of_pos (h c (by simp))]
    exact ih l2 (fun d hd => h d (by simp [hd]))

theorem rtrimWS_append_keep (a d : Str) (hd : rtrimWS d ≠ []) :
    rtrimWS (a ++ d) = a ++ rtrimWS d := by
  unfold rtrimWS at hd ⊢
  have hdw : d.reverse.dropWhile isJsWS ≠ [] := by
    intro hcon
    apply hd
    rw [hcon]
    rfl
  rw [List.reverse_append, dropWhileAppendKeep isJsWS d.reverse a.reverse hdw,
    List.reverse_append, List.reverse_reverse]

theorem allWS_of_rtrim_nil (d : Str) (h : rtrimWS d = []) :
    ∀ c ∈ d, isJsWS c = true := by
  unfold rtrimWS at h
  have h2 : d.reverse.dropWhile isJsWS = [] := by
    have := congrArg List.reverse h
    rw [List.reverse_reverse] at this
    simpa using this
  intro c hc
  have := List.dropWhile_eq_nil_iff.mp h2
  exact this c (List.mem_reverse.mpr hc)

theorem rtrimWS_self_of_last (a : Str) (c : Char) (hc : a.getLast? = some c)
    (hnc : isJsWS c = false) : rtrimWS a = a := by
  unfold rtrimWS
  cases hrev : a.reverse with
  | nil =>
    have ha : a = [] := by
      have := congrArg List.reverse hrev
      rw [List.reverse_reverse] at this
      simpa using this
    rw [ha]
    rfl
  | cons c0 t =>
    have hh : a.reverse.head? = some c0 := by rw [hrev]; rfl
    rw [List.head?_reverse, hc] at hh
    have hc0 : c0 = c := by simpa using hh.symm
    rw [List.dropWhile_cons_of_neg (by rw [hc0, hnc]; simp), ← hrev,
      List.reverse_reverse]

theorem rtrimWS_append_allws (a w : Str) (hw : ∀ c ∈ w, isJsWS c = true)
    (ha : rtrimWS a = a) : rtrimWS (a ++ w) = a := by
  unfold rtrimWS at ha ⊢
  rw [List.reverse_append,
    dropWhileAppendAll isJsWS w.reverse a.reverse
      (fun c hc => hw c (List.mem_reverse.mp hc)), ha]

theorem ltrimWS_dash (s : Str) : ltrimWS ('-' :: s) = '-' :: s := by
  unfold ltrimWS
  rw [List.dropWhile_cons_of_neg (by decide)]

theorem matterParse_open (Q : Str) :
    matterParse ('-' :: '-' :: '-' :: '\n' :: Q) =
      (match splitAtClose ('\n' :: Q) with
       | none => ([], parseBlock ('\n' :: Q))
       | some (block, after) => (stripContentStart after, parseBlock block)) := rfl

theorem stripContentStart_nl (X : Str) : stripContentStart ('\n' :: X) = X := rfl

theorem matter_of_message (metadata : List (Str × Str)) (desc : Str)
    (hk : ∀ kv ∈ metadata, plainKey kv.1 = true)
    (hv : ∀ kv ∈ metadata, plainScalar kv.2 = true)
    (hne : metadata ≠ []) :
    matterParse (jsTrim (strOf "---\n" ++ yamlStringify metadata ++
      strOf "---\n" ++ desc)) = (rtrimWS desc, metadata) := by
  have hY := yamlStringify_eq_joinEntries metadata hne
  have hnlJ : nlOk (joinEntries metadata) = true := nlOk_joinEntries metadata hk hv
  have hdash : startsWithDash (joinEntries metadata) = false := by
    cases metadata with
    | nil => exact absurd rfl hne
    | cons kv rest => exact startsWithDash_joinEntries kv rest (hk kv (by simp))
  have hnl : nlOk ('\n' :: joinEntries metadata) = true := by
    show ((!('\n' == '\n') || !(startsWithDash (joinEntries metadata))) &&
      nlOk (joinEntries metadata)) = true
    rw [hdash, hnlJ]
    rfl
  have h4 : strOf "---\n" = '-' :: '-' :: '-' :: '\n' :: [] := rfl
  have hmsg : strOf "---\n" ++ yamlStringify metadata ++ strOf "---\n" ++ desc =
      '-' :: '-' :: '-' :: '\n' :: (joinEntries metadata ++
        '\n' :: '-' :: '-' :: '-' :: '\n' :: desc) := by
    rw [hY, h4]
    simp
  rw [hmsg, jsTrim, ltrimWS_dash]
  by_cases hd : rtrimWS desc = []
  · have hwall : ∀ c ∈ ('\n' :: desc), isJsWS c = true := by
      intro c hc
      rcases List.mem_cons.mp hc with hc | hc
      · rw [hc]; decide
      · exact allWS_of_rtrim_nil desc hd c hc
    have hre : ('-' :: '-' :: '-' :: '\n' :: (joinEntries metadata ++
          '\n' :: '-' :: '-' :: '-' :: '\n' :: desc) : Str) =
        ('-' :: '-' :: '-' :: '\n' :: (joinEntries metadata ++ ['\n', '-', '-', '-'])) ++
          ('\n' :: desc) := by
      simp
    have hP2 : ('-' :: '-' :: '-' :: '\n' :: (joinEntries metadata ++
          ['\n', '-', '-', '-']) : Str) =
        ('-' :: '-' :: '-' :: '\n' :: (joinEntries metadata ++ ['\n', '-', '-'])) ++
          ['-'] := by
      simp
    have hPfix : rtrimWS ('-' :: '-' :: '-' :: '\n' :: (joinEntries metadata ++
          ['\n', '-', '-', '-'])) =
        '-' :: '-' :: '-' :: '\n' :: (joinEntries metadata ++ ['\n', '-', '-', '-']) := by
      apply rtrimWS_self_of_last _ '-'
      · rw [hP2, List.getLast?_concat]
      · decide
    rw [hre, rtrimWS_append_allws _ _ hwall hPfix]
    have hsp : ('\n' :: (joinEntries metadata ++ ['\n', '-', '-', '-']) : Str) =
        ('\n' :: joinEntries metadata) ++ '\n' :: '-' :: '-' :: '-' :: ([] : Str) := by
      simp
    rw [matterParse_open, hsp, splitAtClose_append [] ('\n' :: joinEntries metadata) hnl]
    simp only []
    rw [parseBlock_cons_nl, parseBlock_joinEntries metadata hk hv hne, hd]
    rfl
  · have hre : ('-' :: '-' :: '-' :: '\n' :: (joinEntries metadata ++
          '\n' :: '-' :: '-' :: '-' :: '\n' :: desc) : Str) =
        ('-' :: '-' :: '-' :: '\n' :: (joinEntries metadata ++
          ['\n', '-', '-', '-', '\n'])) ++ desc := by
      simp
    rw [hre, rtrimWS_append_keep _ _ hd]
    have hre2 : ('-' :: '-' :: '-' :: '\n' :: (joinEntries metadata ++
          ['\n', '-', '-', '-', '\n']) : Str) ++ rtrimWS desc =
        '-' :: '-' :: '-' :: '\n' :: (joinEntries metadata ++
          '\n' :: '-' :: '-' :: '-' :: '\n' :: rtrimWS desc) := by
      simp
    rw [hre2]
    have hsp : ('\n' :: (joinEntries metadata ++
          '\n' :: '-' :: '-' :: '-' :: '\n' :: rtrimWS desc) : Str) =
        ('\n' :: joinEntries metadata) ++
          '\n' :: '-' :: '-' :: '-' :: ('\n' :: rtrimWS desc) := by
      simp
    rw [matterParse_open, hsp,
      splitAtClose_append ('\n' :: rtrimWS desc) ('\n' :: joinEntries metadata) hnl]
    simp only []
    rw [stripContentStart_nl, parseBlock_cons_nl, parseBlock_joinEntries metadata hk hv hne]

theorem getShortId_full (store : Store) (hwf : storeWF store) (c : GCommit)
    (hc : c ∈ store) :
    getShortId store c 40 = .ok (some (base58encode (hexToBytes c.hash))) := by
  have hlen : c.hash.length = 40 := (hwf.2 c hc).1
  obtain ⟨n, hgo, hn1, hn2, _, _, _⟩ :=
    getShortIdGo_spec store hwf c hc (c.hash.length + 2) 40 (by omega) (by omega)
      (by omega) (by omega)
  have hn : n = 40 := by omega
  subst hn
  unfold getShortId
  rw [hgo]
  simp only []
  rw [List.take_of_length_le (by omega)]

theorem get_of_commit (st : RepoModel) (c : GCommit)
    (hwf : storeWF st.store) (hc : c ∈ st.store) :
    Repository.get st (base58encode (hexToBytes c.hash)) =
      formatRedirectCommit st c := by
  have hlen : c.hash.length = 40 := (hwf.2 c hc).1
  have hhex : ∀ ch ∈ c.hash, ch ∈ LHEX := (hwf.2 c hc).2
  unfold Repository.get
  have hne : base58encode (hexToBytes c.hash) ≠ [] := by
    have hbytes : hexToBytes c.hash ≠ [] := by
      cases hh : c.hash with
      | nil => rw [hh] at hlen; simp at hlen
      | cons a t =>
        cases t with
        | nil => rw [hh] at hlen; simp at hlen
        | cons b t2 =>
          rw [hexToBytes]
          simp
    exact base58encode_ne_nil _ hbytes (hexToBytes_lt _ hhex)
  rw [if_neg hne]
  rw [base58_roundtrip (hexToBytes c.hash) (hexToBytes_lt _ hhex)]
  simp only []
  rw [bytesToHex_hexToBytes c.hash hhex (by omega)]
  rw [resolveFull st.store hwf c hc]

theorem filter_key_of_nodup :
    ∀ (l : List (Str × Str)), (l.map (fun kv => kv.1)).Nodup →
      ∀ kv ∈ l, l.filter (fun x => x.1 == kv.1) = [kv] := by
  intro l
  induction l with
  | nil => intro _ kv hkv; simp at hkv
  | cons d t ih =>
    intro hnd kv hkv
    simp only [List.map_cons, List.nodup_cons] at hnd
    rcases List.mem_cons.mp hkv with h1 | h1
    · subst h1
      rw [List.filter_cons_of_pos (by simp)]
      have hrest : t.filter (fun x => x.1 == kv.1) = [] := by
        rw [List.filter_eq_nil_iff]
        intro x hx hpx
        simp only [beq_iff_eq] at hpx
        exact hnd.1 (by rw [← hpx]; exact List.mem_map_of_mem _ hx)
      rw [hrest]
    · have hpd : (d.1 == kv.1) = false := by
        rw [beq_eq_false_iff_ne]
        intro hd1
        exact hnd.1 (by rw [hd1]; exact List.mem_map_of_mem _ h1)
      rw [List.filter_cons_of_neg (by simp [hpd])]
      exact ih hnd.2 kv h1

theorem objGet_first (base : List (Str × JVal)) (data : List (Str × Str))
    (k : Str) (v : JVal)
    (hbase : base.filter (fun kv => kv.1 == k) = [(k, v)])
    (hdata : data.filter (fun kv => kv.1 == k) = []) :
    objGet (base ++ data.map (fun kv => (kv.1, JVal.s kv.2))) k = some v := by
  unfold objGet
  rw [List.filter_append, filter_map_keys, hbase, hdata]
  rfl

theorem objGet_last (base : List (Str × JVal)) (data : List (Str × Str))
    (k v : Str)
    (hdata : data.filter (fun kv => kv.1 == k) = [(k, v)]) :
    objGet (base ++ data.map (fun kv => (kv.1, JVal.s kv.2))) k = some (.s v) := by
  unfold objGet
  rw [List.filter_append, filter_map_keys, hdata]
  simp only [List.map_cons, List.map_nil]
  rw [List.getLast?_concat]
  rfl

theorem create_steps (st : RepoModel) (tip : Str) (url desc : Str)
    (extras : List (Str × Str)) (newHash : Str) (env : SyncEnv)
    (htip : st.branchTip = some tip)
    (hconf : st.hasConflicts = false)
    (hstag : st.stagedChanges = false)
    (hurl : isValidURL (some url) = true) :
    Repository.create st (some url) (some desc) false extras newHash env =
      (match formatRedirectCommit (createdState st tip url desc extras newHash)
          (mkNewCommit st tip url desc extras newHash) with
       | .error e => .error e
       | .ok r => .ok (r, createdState st tip url desc extras newHash)) := by
  unfold Repository.create createdState mkNewCommit
  rw [if_neg (by rw [hurl]; decide)]
  rw [htip]
  simp only []
  rw [hconf]
  simp only [Bool.false_eq_true, if_false]
  rw [if_neg (by
    unfold hasStagedChanges
    simp only []
    rw [hstag]
    decide)]
  rw [show promiseIsFalsy = false from rfl]
  simp only [Bool.false_eq_true, if_false]
  rw [if_neg (fun h => h rfl)]
  rfl

theorem formatRedirect_of_message (st : RepoModel) (c : GCommit)
    (hwf : storeWF st.store) (hc : c ∈ st.store) (hbase : st.baseUrl = none)
    (metadata : List (Str × Str)) (desc : Str)
    (hmsg : c.message = strOf "---\n" ++ yamlStringify metadata ++
      strOf "---\n" ++ desc)
    (hk : ∀ kv ∈ metadata, plainKey kv.1 = true)
    (hv : ∀ kv ∈ metadata, plainScalar kv.2 = true)
    (hne : metadata ≠ [])
    (hurl : isValidURL (dataGet metadata (strOf "url")) = true) :
    ∃ sid : Str, formatRedirectCommit st c =
      .ok ([(strOf "id", .s (base58encode (hexToBytes c.hash))),
            (strOf "shortId", .s sid),
            (strOf "shortUrl", JVal.null),
            (strOf "description", JVal.s (rtrimWS desc)),
            (strOf "created", .time ((c.authorTime + c.authorOffset * 60) * 1000)),
            (strOf "creator", .s c.authorName)] ++
           metadata.map (fun kv => (kv.1, JVal.s kv.2))) := by
  have hlen : c.hash.length = 40 := (hwf.2 c hc).1
  have hmat : matterParse (jsTrim c.message) = (rtrimWS desc, metadata) := by
    rw [hmsg]
    exact matter_of_message metadata desc hk hv hne
  obtain ⟨n, hgo4, hn4, hn40, _, _, _⟩ :=
    getShortIdGo_spec st.store hwf c hc (c.hash.length + 2) 4 (by omega) (by omega)
      (by omega) (by omega)
  have h4 : getShortId st.store c MINIMUM_HASH =
      .ok (some (base58encode (hexToBytes (c.hash.take n)))) := by
    unfold getShortId MINIMUM_HASH
    rw [hgo4]
  refine ⟨base58encode (hexToBytes (c.hash.take n)), ?_⟩
  unfold formatRedirectCommit
  dsimp only
  rw [hmat]
  dsimp only
  rw [hurl]
  simp only [Bool.not_true, Bool.false_eq_true, if_false]
  rw [getShortId_full st.store hwf c hc]
  simp only []
  rw [h4]
  simp only []
  have hsu : getShortUrl st (some (base58encode (hexToBytes (c.hash.take n)))) =
      .ok JVal.null := by
    unfold getShortUrl
    rw [hbase]
  rw [hsu]
  rfl

theorem base6_filter_id (v1 v2 v3 v4 v5 v6 : JVal) :
    [(strOf "id", v1), (strOf "shortId", v2), (strOf "shortUrl", v3),
     (strOf "description", v4), (strOf "created", v5),
     (strOf "creator", v6)].filter (fun kv => kv.1 == strOf "id") =
      [(strOf "id", v1)] := by
  simp [show (strOf "id" == strOf "id") = true by decide,
    show (strOf "shortId" == strOf "id") = false by decide,
    show (strOf "shortUrl" == strOf "id") = false by decide,
    show (strOf "description" == strOf "id") = false by decide,
    show (strOf "created" == strOf "id") = false by decide,
    show (strOf "creator" == strOf "id") = false by decide]

theorem base6_filter_descr (v1 v2 v3 v4 v5 v6 : JVal) :
    [(strOf "id", v1), (strOf "shortId", v2), (strOf "shortUrl", v3),
     (strOf "description", v4), (strOf "created", v5),
     (strOf "creator", v6)].filter (fun kv => kv.1 == strOf "description") =
      [(strOf "description", v4)] := by
  simp [show (strOf "id" == strOf "description") = false by decide,
    show (strOf "shortId" == strOf "description") = false by decide,
    show (strOf "shortUrl" == strOf "description") = false by decide,
    show (strOf "description" == strOf "description") = true by decide,
    show (strOf "created" == strOf "description") = false by decide,
    show (strOf "creator" == strOf "description") = false by decide]

/-- Claim C6, amended: for a clean repository on its tracked branch, a
valid plain-scalar `url`, extension fields with distinct plain keys that
avoid the names `url`, `description` and `id`, and a fresh well-formed
object id for the new commit, `create` succeeds and looking the result
up by its returned `id` yields the very same record; that record carries
the `url` and every extension field exactly as passed, while its
`description` is the passed description with surrounding whitespace
trimmed by the round trip through the commit message. -/
theorem C6_amended (st : RepoModel) (tip url desc : Str)
    (extras : List (Str × Str)) (newHash : Str) (env : SyncEnv)
    (hwf : storeWF st.store)
    (htip : st.branchTip = some tip)
    (hconf : st.hasConflicts = false)
    (hstag : st.stagedChanges = false)
    (hbase : st.baseUrl = none)
    (hurl : isValidURL (some url) = true)
    (hpu : plainScalar url = true)
    (hek : ∀ kv ∈ extras, plainKey kv.1 = true)
    (hev : ∀ kv ∈ extras, plainScalar kv.2 = true)
    (hnd : (extras.map (fun kv => kv.1)).Nodup)
    (hku : ∀ kv ∈ extras, kv.1 ≠ strOf "url")
    (hkd : ∀ kv ∈ extras, kv.1 ≠ strOf "description")
    (hki : ∀ kv ∈ extras, kv.1 ≠ strOf "id")
    (hnh : isHash newHash)
    (hfresh : ∀ c ∈ st.store, c.hash ≠ newHash) :
    ∃ r st2,
      Repository.create st (some url) (some desc) false extras newHash env =
        .ok (r, st2) ∧
      objGet r (strOf "id") = some (.s (base58encode (hexToBytes newHash))) ∧
      Repository.get st2 (base58encode (hexToBytes newHash)) = .ok r ∧
      objGet r (strOf "url") = some (.s url) ∧
      objGet r (strOf "description") = some (.s (rtrimWS desc)) ∧
      ∀ kv ∈ extras, objGet r kv.1 = some (.s kv.2) := by
  have hwfA : storeWF (st.store ++ [mkNewCommit st tip url desc extras newHash]) := by
    constructor
    · rw [List.map_append, List.nodup_append]
      refine ⟨hwf.1, List.nodup_singleton _, ?_⟩
      intro a ha hb
      obtain ⟨cc, hcc, rfl⟩ := List.mem_map.mp ha
      simp only [List.map_cons, List.map_nil, List.mem_cons, List.not_mem_nil,
        or_false] at hb
      exact hfresh cc hcc hb
    · intro cc hcc
      rcases List.mem_append.mp hcc with h | h
      · exact hwf.2 cc h
      · have hcc2 : cc = mkNewCommit st tip url desc extras newHash := by
          simpa using h
        rw [hcc2]
        exact hnh
  have hcA : mkNewCommit st tip url desc extras newHash ∈
      st.store ++ [mkNewCommit st tip url desc extras newHash] := by simp
  have hmk : ∀ kv ∈ (strOf "url", url) :: extras, plainKey kv.1 = true := by
    intro kv hkv
    rcases List.mem_cons.mp hkv with h | h
    · rw [h]
      show plainKey (strOf "url") = true
      decide
    · exact hek kv h
  have hmv : ∀ kv ∈ (strOf "url", url) :: extras, plainScalar kv.2 = true := by
    intro kv hkv
    rcases List.mem_cons.mp hkv with h | h
    · rw [h]
      exact hpu
    · exact hev kv h
  have hex0 : extras.filter (fun x => x.1 == strOf "url") = [] := by
    rw [List.filter_eq_nil_iff]
    intro kv hkv hp
    exact hku kv hkv (by simpa using hp)
  have hfu : ((strOf "url", url) :: extras).filter (fun x => x.1 == strOf "url") =
      [(strOf "url", url)] := by
    simp [show ((strOf "url" : Str) == strOf "url") = true by decide, hex0]
  have hdurl : dataGet ((strOf "url", url) :: extras) (strOf "url") = some url := by
    unfold dataGet
    rw [hfu]
    rfl
  have hdid : ((strOf "url", url) :: extras).filter
      (fun x => x.1 == strOf "id") = [] := by
    rw [List.filter_eq_nil_iff]
    intro kv hkv
    rcases List.mem_cons.mp hkv with h | h
    · rw [h]
      simp [show ((strOf "url" : Str) == strOf "id") = false by decide]
    · intro hp
      exact hki kv h (by simpa using hp)
  have hddesc : ((strOf "url", url) :: extras).filter
      (fun x => x.1 == strOf "description") = [] := by
    rw [List.filter_eq_nil_iff]
    intro kv hkv
    rcases List.mem_cons.mp hkv with h | h
    · rw [h]
      simp [show ((strOf "url" : Str) == strOf "description") = false by decide]
    · intro hp
      exact hkd kv h (by simpa using hp)
  obtain ⟨sid, hfmt⟩ := formatRedirect_of_message
    (createdState st tip url desc extras newHash)
    (mkNewCommit st tip url desc extras newHash)
    hwfA hcA hbase ((strOf "url", url) :: extras) desc rfl hmk hmv (by simp)
    (by rw [hdurl]; exact hurl)
  refine ⟨[(strOf "id", .s (base58encode (hexToBytes newHash))),
           (strOf "shortId", .s sid),
           (strOf "shortUrl", JVal.null),
           (strOf "description", .s (rtrimWS desc)),
           (strOf "created", .time ((st.sigTime + st.sigOffset * 60) * 1000)),
           (strOf "creator", .s st.sigName)] ++
          ((strOf "url", url) :: extras).map (fun kv => (kv.1, JVal.s kv.2)),
         createdState st tip url desc extras newHash, ?_, ?_, ?_, ?_, ?_, ?_⟩
  · rw [create_steps st tip url desc extras newHash env htip hconf hstag hurl, hfmt]
    rfl
  · exact objGet_first _ _ _ _ (base6_filter_id _ _ _ _ _ _) hdid
  · have hg := get_of_commit (createdState st tip url desc extras newHash)
      (mkNewCommit st tip url desc extras newHash) hwfA hcA
    rw [hfmt] at hg
    exact hg
  · exact objGet_last _ _ _ _ hfu
  · exact objGet_first _ _ _ _ (base6_filter_descr _ _ _ _ _ _) hddesc
  · intro kv hkv
    have hhead : ((strOf "url" : Str) == kv.1) = false := by
      rw [beq_eq_false_iff_ne]
      exact fun h => hku kv hkv h.symm
    have hfil : ((strOf "url", url) :: extras).filter (fun x => x.1 == kv.1) =
        [kv] := by
      rw [List.filter_cons_of_neg (by simp [hhead])]
      exact filter_key_of_nodup extras hnd kv hkv
    exact objGet_last _ _ kv.1 kv.2 hfil

/-- Claim C6, amended-claim witness: creating a record with url
`http://example.com/a`, description `hello`, and the extension field
`color: blue` in the healthy one-commit repository, then looking it up
by the returned id. -/
theorem C6_amended_witness :
    ∃ r st2,
      Repository.create exRepo (some (strOf "http://example.com/a"))
          (some (strOf "hello")) false [(strOf "color", strOf "blue")]
          exHashNew exEnv = .ok (r, st2) ∧
      objGet r (strOf "id") = some (.s (base58encode (hexToBytes exHashNew))) ∧
      Repository.get st2 (base58encode (hexToBytes exHashNew)) = .ok r ∧
      objGet r (strOf "url") = some (.s (strOf "http://example.com/a")) ∧
      objGet r (strOf "description") = some (.s (rtrimWS (strOf "hello"))) ∧
      ∀ kv ∈ [(strOf "color", strOf "blue")], objGet r kv.1 = some (.s kv.2) :=
  C6_amended exRepo exHash0 (strOf "http://example.com/a") (strOf "hello")
    [(strOf "color", strOf "blue")] exHashNew exEnv
    (by decide) (by decide) (by decide) (by decide) (by decide) (by decide)
    (by decide) (by decide) (by decide) (by decide) (by decide) (by decide)
    (by decide) (by decide) (by decide)
